import Mathlib

/-!
Verification development for the patterncounter repository.

The Python sources are shallowly embedded: each class/function of
`src/patterncounter/operators.py`, `parser.py`, `visitor.py`, `counter.py`
is translated into an executable Lean definition keeping the source
structure (generators become lists enumerated in yield order, Python
`int` indices become `Int`/`Nat`, exceptions become `Except`/`Option`).
-/

set_option maxHeartbeats 2000000

namespace PatternCounter

/-- `TSequence = List[List[str]]` from sequences.py: a trace is a list of
itemsets, an itemset a list of element strings. -/
abbrev TSeq := List (List String)

/-- A position-range yielded by `find_positions` (a pair of trace indices). -/
abbrev Pos := Int × Int

/-- The Rule expression tree from operators.py.  Python classes Has, Slice,
Sequence, And, Or, Not, Intersect, First, Last become constructors.  The
variadic `*rules` constructors are modelled as head + tail, matching every
tree the parser can build (Python arity-0 construction is unusable: its
`find_positions`/`repr` raise).  `Slice.open_first`/`open_last` are stored as
booleans (the source stores `int(bool)`, used only as 0/1). -/
inductive Rule where
  | has (element : String)
  | slice (element : String) (subrules : List Rule) (openFirst openLast : Bool)
  | seq (hd : Rule) (tl : List Rule) (same : Bool)
  | and (hd : Rule) (tl : List Rule)
  | or (hd : Rule) (tl : List Rule)
  | not (rule : Rule)
  | intersect (hd : Rule) (tl : List Rule)
  | first (rule : Rule)
  | last (rule : Rule)

/-- `int(bool)` as stored in `Slice.__init__`. -/
def boolNat (b : Bool) : Nat := if b then 1 else 0

/-- Python list slice `s[a:b]` for `0 ≤ a, b` (clamping semantics). -/
def pySlice (s : TSeq) (a b : Nat) : TSeq := (s.drop a).take (b - a)

/-- Python `sequence[a : -open_last or None]` from `Slice.find_positions`:
`open_last` is the int 0 or 1; `-0 or None` is `None` (slice to the end),
`-1` drops the final itemset. -/
def pySliceEnd (s : TSeq) (a : Nat) (olN : Nat) : TSeq :=
  if olN = 0 then s.drop a else (s.drop a).take (s.length - 1 - a)

/-- `itertools.product` over a list of lists, in Python's iteration order
(leftmost factor slowest). -/
def pyProduct : List (List α) → List (List α)
  | [] => [[]]
  | l :: rest => l.flatMap fun x => (pyProduct rest).map (x :: ·)

/-- The for/else loop of `Sequence.find_positions`: scan consecutive pairs,
`break` (reject) when `first[-1] >= second[0] and (not same or first[-1] >
second[0])`. -/
def chainOk (same : Bool) : List Pos → Bool
  | p :: q :: rest =>
      if q.1 ≤ p.2 ∧ (same = false ∨ q.1 < p.2) then false
      else chainOk same (q :: rest)
  | _ => true

/-- The inner for loop of `Intersect.find_positions`: narrow `[minimum,
maximum]` by each position of the tuple, `break` (reject) as soon as
`pos[-1] < minimum` or `pos[0] > maximum`. -/
def intersectFold : List Pos → Int → Int → Option Pos
  | [], minimum, maximum => some (minimum, maximum)
  | p :: ps, minimum, maximum =>
      if p.2 < minimum then none
      else if p.1 > maximum then none
      else intersectFold ps (max minimum p.1) (min maximum p.2)

/-- `Has.find_positions`: one singleton range per itemset containing the
element.  The absolute index `i + start` is threaded directly. -/
def hasPositions (element : String) : TSeq → Int → List Pos
  | [], _ => []
  | m :: rest, i => (if m.contains element then [(i, i)] else []) ++ hasPositions element rest (i + 1)

/-- The `for i, moment in enumerate(sequence)` loop of `Slice.find_positions`
with its trailing flush.  `chk` is the `all(rule.check(...) for rule in
self.subrules)` test (passed as a closure so the loop recursion is structural
on the trace); `ofN`/`olN` are the stored `int(open_first)`/`int(open_last)`;
`full` is the whole trace being scanned, `rest`/`i` the loop position and
`fst` the running `first` variable. -/
def sliceLoop (element : String) (chk : TSeq → Bool) (ofN olN : Nat) (full : TSeq) (start : Int) :
    TSeq → Nat → Option Nat → List Pos
  | [], _, none => []
  | [], _, some f =>
      if chk (pySliceEnd full (f + ofN) olN) then
        [((f : Int) + start, (full.length : Int) - 1 + start)]
      else []
  | m :: rest, i, none =>
      if m.contains element then sliceLoop element chk ofN olN full start rest (i + 1) (some i)
      else sliceLoop element chk ofN olN full start rest (i + 1) none
  | m :: rest, i, some f =>
      if !(m.contains element) then
        (if chk (pySlice full (f + ofN) (i - olN)) then [((f : Int) + start, (i : Int) - 1 + start)]
         else []) ++
          sliceLoop element chk ofN olN full start rest (i + 1) none
      else sliceLoop element chk ofN olN full start rest (i + 1) (some f)

mutual

/-- `Rule.find_positions(sequence, start)` for every operator variant of
operators.py, in yield order. -/
def find_positions : Rule → TSeq → Int → List Pos
  | .has element, s, start => hasPositions element s start
  | .slice element subrules opf opl, s, start =>
      sliceLoop element (fun w => subrulesCheck subrules w) (boolNat opf) (boolNat opl) s start s 0 none
  | .seq hd tl same, s, start =>
      let rule_pos := findPositionsList (hd :: tl) s start
      (pyProduct rule_pos).filterMap fun positions =>
        match positions, positions.getLast? with
        | p :: _, some q => if chainOk same positions then some (p.1, q.2) else none
        | _, _ => none
  | .and hd tl, s, start =>
      let rule_pos := findPositionsList (hd :: tl) s start
      if rule_pos.all (fun l => !l.isEmpty) then
        match rule_pos.flatten with
        | [] => []
        | p :: ps => [(ps.foldl (fun a q => min a q.1) p.1, ps.foldl (fun a q => max a q.2) p.2)]
      else []
  | .or hd tl, s, start =>
      let rule_pos := findPositionsList (hd :: tl) s start
      if rule_pos.any (fun l => !l.isEmpty) then
        match rule_pos.flatten with
        | [] => []
        | p :: ps => [(ps.foldl (fun a q => min a q.1) p.1, ps.foldl (fun a q => max a q.2) p.2)]
      else []
  | .not rule, s, start =>
      match find_positions rule s start with
      | [] => [(start, (s.length : Int) + start - 1)]
      | _ :: _ => []
  | .intersect hd tl, s, start =>
      let rule_pos := findPositionsList (hd :: tl) s start
      (pyProduct rule_pos).filterMap fun positions =>
        intersectFold positions start ((s.length : Int) + start)
  | .first rule, s, start =>
      (find_positions rule s start).filter fun p => p.1 == start
  | .last rule, s, start =>
      (find_positions rule s start).filter fun p => p.2 == (s.length : Int) + start - 1
termination_by r _ _ => 3 * sizeOf r + 2
decreasing_by all_goals (simp_wf; try omega)

/-- `[rule.find_positions(sequence, start) for rule in rules]`. -/
def findPositionsList : List Rule → TSeq → Int → List (List Pos)
  | [], _, _ => []
  | r :: rest, s, start => find_positions r s start :: findPositionsList rest s start
termination_by rs _ _ => 3 * sizeOf rs + 1
decreasing_by all_goals (simp_wf; try omega)

/-- `all(rule.check(window) for rule in subrules)` from
`Slice.find_positions`, with `Rule.check` (is `find_positions` nonempty?)
inlined so the mutual recursion stays on subterms. -/
def subrulesCheck : List Rule → TSeq → Bool
  | [], _ => true
  | r :: rest, s =>
      (match find_positions r s 0 with
       | [] => false
       | _ :: _ => true) && subrulesCheck rest s
termination_by rs _ => 3 * sizeOf rs + 2
decreasing_by all_goals (simp_wf; try omega)

end

/-- `Rule.check(sequence)`: iterate `find_positions(sequence)` and return
`True` on the first yielded item, `False` if the generator is exhausted. -/
def check (rule : Rule) (sequence : TSeq) : Bool :=
  match find_positions rule sequence 0 with
  | [] => false
  | _ :: _ => true

theorem subrulesCheck_eq_all (rs : List Rule) (s : TSeq) :
    subrulesCheck rs s = rs.all (fun r => check r s) := by
  induction rs with
  | nil => simp [subrulesCheck]
  | cons r rest ih => simp [subrulesCheck, check, ih, List.all_cons]


mutual

/-- Python `__eq__` of each Rule class: an `isinstance` test plus
componentwise comparison (`Slice` compares element, subrules and the two
stored open flags; `Sequence` compares its rule tuple and `same`; the
variadic classes compare their rule tuples). -/
def pyEq : Rule → Rule → Bool
  | .has e, .has e2 => e == e2
  | .slice e subs opf opl, .slice e2 subs2 opf2 opl2 =>
      e == e2 && pyEqList subs subs2 && opf == opf2 && opl == opl2
  | .seq hd tl same, .seq hd2 tl2 same2 => pyEqList (hd :: tl) (hd2 :: tl2) && same == same2
  | .and hd tl, .and hd2 tl2 => pyEqList (hd :: tl) (hd2 :: tl2)
  | .or hd tl, .or hd2 tl2 => pyEqList (hd :: tl) (hd2 :: tl2)
  | .not r, .not r2 => pyEq r r2
  | .intersect hd tl, .intersect hd2 tl2 => pyEqList (hd :: tl) (hd2 :: tl2)
  | .first r, .first r2 => pyEq r r2
  | .last r, .last r2 => pyEq r r2
  | _, _ => false
termination_by r _ => 2 * sizeOf r + 1
decreasing_by all_goals (simp_wf; try omega)

/-- Python tuple/list `==` on rule sequences: equal length and elementwise
`__eq__`. -/
def pyEqList : List Rule → List Rule → Bool
  | [], [] => true
  | r :: rs, r2 :: rs2 => pyEq r r2 && pyEqList rs rs2
  | _, _ => false
termination_by l _ => 2 * sizeOf l
decreasing_by all_goals (simp_wf; try omega)

end

mutual

theorem pyEqR_iff : ∀ (r1 r2 : Rule), pyEq r1 r2 = true ↔ r1 = r2
  | .has e, r2 => by cases r2 <;> simp [pyEq]
  | .slice e subs opf opl, r2 => by
      cases r2 <;> simp [pyEq]
      rw [pyEqL_iff subs _]
      tauto
  | .seq hd tl same, r2 => by
      cases r2 <;> simp [pyEq]
      rw [pyEqL_iff (hd :: tl) _]
      simp; tauto
  | .and hd tl, r2 => by
      cases r2 <;> simp [pyEq]
      rw [pyEqL_iff (hd :: tl) _]
      simp
  | .or hd tl, r2 => by
      cases r2 <;> simp [pyEq]
      rw [pyEqL_iff (hd :: tl) _]
      simp
  | .not r, r2 => by
      cases r2 <;> simp [pyEq]
      rw [pyEqR_iff r _]
  | .intersect hd tl, r2 => by
      cases r2 <;> simp [pyEq]
      rw [pyEqL_iff (hd :: tl) _]
      simp
  | .first r, r2 => by
      cases r2 <;> simp [pyEq]
      rw [pyEqR_iff r _]
  | .last r, r2 => by
      cases r2 <;> simp [pyEq]
      rw [pyEqR_iff r _]
termination_by r1 _ => 2 * sizeOf r1 + 1
decreasing_by all_goals (simp_wf; try omega)

theorem pyEqL_iff : ∀ (l1 l2 : List Rule), pyEqList l1 l2 = true ↔ l1 = l2
  | [], l2 => by cases l2 <;> simp [pyEqList]
  | r :: rs, l2 => by
      cases l2 <;> simp [pyEqList]
      rw [pyEqR_iff r _, pyEqL_iff rs _]
termination_by l1 _ => 2 * sizeOf l1
decreasing_by all_goals (simp_wf; try omega)

end

/-- Python `==` on rules coincides with structural equality. -/
theorem pyEq_iff (r1 r2 : Rule) : pyEq r1 r2 = true ↔ r1 = r2 := pyEqR_iff r1 r2

mutual

/-- Python `__repr__` of each Rule class.  `none` models the `ValueError`
Python raises when `_show` unpacks an empty rest list (a `Sequence`, `Or` or
`Intersect` built with a single rule has no printable repr); every
parser-built tree gives `some`. -/
def pyRepr : Rule → Option String
  | .has e => some e
  | .slice e subs opf opl => do
      pure ((if opf then "\x7b" else "[") ++ e ++ (← reprSubs subs) ++
        (if opl then "\x7d" else "]"))
  | .seq hd tl same => showR (if same then " => " else " -> ") hd tl
  | .and hd tl => do
      pure ("(" ++ String.intercalate " " (← reprEach (hd :: tl)) ++ ")")
  | .or hd tl => showR " | " hd tl
  | .not r => do pure ("~" ++ (← pyRepr r))
  | .intersect hd tl => showR " & " hd tl
  | .first r => do pure ("^" ++ (← pyRepr r))
  | .last r => do pure ("$" ++ (← pyRepr r))
termination_by r => 2 * sizeOf r + 1
decreasing_by all_goals (simp_wf; try omega)

/-- `Slice.__repr__` appends `f" {rule!r}"` for each subrule. -/
def reprSubs : List Rule → Option String
  | [] => some ""
  | r :: rest => do pure (" " ++ (← pyRepr r) ++ (← reprSubs rest))
termination_by l => 2 * sizeOf l
decreasing_by all_goals (simp_wf; try omega)

/-- `[repr(rule) for rule in rules]` (used by `And.__repr__`). -/
def reprEach : List Rule → Option (List String)
  | [] => some []
  | r :: rest => do pure ((← pyRepr r) :: (← reprEach rest))
termination_by l => 2 * sizeOf l
decreasing_by all_goals (simp_wf; try omega)

/-- `_show(rules, sep)` from operators.py: `repr(first) ++ sep` then either
the repr of a single remaining rule or the parenthesised recursion; with no
remaining rule the Python unpacking of `_show([])` raises (`none`). -/
def showR (sep : String) (first : Rule) : List Rule → Option String
  | [] => none
  | [r] => do pure ((← pyRepr first) ++ sep ++ (← pyRepr r))
  | r :: rest => do pure ((← pyRepr first) ++ sep ++ "(" ++ (← showR sep r rest) ++ ")")
termination_by l => 2 * (sizeOf first + sizeOf l)
decreasing_by all_goals (simp_wf; try omega)

end

/-- Python `__hash__`: `hash(repr(self))` for the process's string hash `h`
(arbitrary here, since `PYTHONHASHSEED` makes it unspecified). -/
def ruleHash (h : String → Int) (r : Rule) : Option Int := (pyRepr r).map h

/-- Shared helper: `check` is true exactly when `find_positions` with the
default offset yields something. -/
theorem check_true_iff (r : Rule) (t : TSeq) :
    check r t = true ↔ find_positions r t 0 ≠ [] := by
  unfold check; cases h : find_positions r t 0 <;> simp

/-- C1: for every Rule `r` and trace `t`, `r.check(t)` returns true iff
`r.find_positions(t)` (default offset 0) yields at least one position-range;
`check`'s match consumes only the head of the yielded sequence. -/
theorem C1_check_iff_find_positions (r : Rule) (t : TSeq) :
    check r t = true ↔ find_positions r t 0 ≠ [] := by
  unfold check; cases h : find_positions r t 0 <;> simp


/-- C3 counterexample: `Sequence(Has A, Has B, Has C)` and
`Sequence(Has A, And(Sequence(Has B, Has C)))` are independently constructed
trees with the identical canonical rendering `"A -> (B -> C)"`, yet Python
`==` (`pyEq`) distinguishes them, so identical canonical text does not imply
`==` equality (hashes, being string hashes of the rendering, do collide). -/
theorem C3_repr_collision_counterexample :
    pyRepr (Rule.seq (.has "A") [.has "B", .has "C"] false) = some "A -> (B -> C)" ∧
    pyRepr (Rule.seq (.has "A") [Rule.and (Rule.seq (.has "B") [.has "C"] false) []] false) =
      some "A -> (B -> C)" ∧
    pyEq (Rule.seq (.has "A") [.has "B", .has "C"] false)
      (Rule.seq (.has "A") [Rule.and (Rule.seq (.has "B") [.has "C"] false) []] false) = false := by
  have hne : Rule.seq (.has "A") [.has "B", .has "C"] false ≠
      Rule.seq (.has "A") [Rule.and (Rule.seq (.has "B") [.has "C"] false) []] false := by simp
  refine ⟨by simp [pyRepr, showR], by simp [pyRepr, showR, reprEach]; rfl, ?_⟩
  cases h : pyEq (Rule.seq (.has "A") [.has "B", .has "C"] false)
      (Rule.seq (.has "A") [Rule.and (Rule.seq (.has "B") [.has "C"] false) []] false) with
  | false => rfl
  | true => exact absurd ((pyEq_iff _ _).1 h) hne

/-- C3 (amended): identical canonical renderings force equal hashes (the hash
is the string hash of the rendering), and `==`-equal trees have identical
renderings and hashes; identical renderings do not force `==` (see the
counterexample). -/
theorem C3_amended_repr_hash :
    (∀ (h : String → Int) (r1 r2 : Rule), pyRepr r1 = pyRepr r2 →
      ruleHash h r1 = ruleHash h r2) ∧
    (∀ r1 r2 : Rule, pyEq r1 r2 = true → pyRepr r1 = pyRepr r2 ∧
      ∀ h : String → Int, ruleHash h r1 = ruleHash h r2) := by
  constructor
  · intro h r1 r2 hr
    simp [ruleHash, hr]
  · intro r1 r2 he
    have h12 : r1 = r2 := (pyEq_iff r1 r2).1 he
    subst h12
    exact ⟨rfl, fun _ => rfl⟩

theorem C3_amended_repr_hash_witness :
    ruleHash (fun s => (s.length : Int)) (Rule.has "A") =
      ruleHash (fun s => (s.length : Int)) (Rule.has "A") ∧
    pyRepr (Rule.has "A") = pyRepr (Rule.has "A") :=
  ⟨C3_amended_repr_hash.1 (fun s => (s.length : Int)) (Rule.has "A") (Rule.has "A") rfl,
   (C3_amended_repr_hash.2 (Rule.has "A") (Rule.has "A") (by simp [pyEq])).1⟩


/-- The split glyphs of `tokenize` (`letter in "\x7b[()]\x7d|&^$~"`). -/
def glyphChars : List Char := ['\x7b', '[', '(', ')', ']', '\x7d', '|', '&', '^', '$', '~']

/-- The character loop of `tokenize` from parser.py: `current` is the pending
run, `tokens` the accumulator.  Glyphs flush the run and are emitted alone;
`-`/`=` flush the run and start a new one; `>` is appended and the run
flushed; a space flushes; anything else extends the run; the final run is
flushed at the end. -/
def tokenizeGo (text : List Char) (current : List Char) (tokens : List String) : List String :=
  match text with
  | [] => tokens ++ (if current.isEmpty then [] else [String.mk current])
  | c :: rest =>
    if c ∈ glyphChars then
      tokenizeGo rest []
        ((tokens ++ (if current.isEmpty then [] else [String.mk current])) ++ [String.mk [c]])
    else if c = '-' ∨ c = '=' then
      tokenizeGo rest [c] (tokens ++ (if current.isEmpty then [] else [String.mk current]))
    else if c = '>' then
      tokenizeGo rest [] (tokens ++ [String.mk (current ++ [c])])
    else if c = ' ' then
      tokenizeGo rest [] (tokens ++ (if current.isEmpty then [] else [String.mk current]))
    else
      tokenizeGo rest (current ++ [c]) tokens

/-- `tokenize(text)` from parser.py. -/
def tokenize (text : String) : List String := tokenizeGo text.data [] []

theorem strDataMk (l : List Char) : (String.mk l).data = l := rfl

/-- Shape invariants satisfied by every token `tokenize` emits: nonempty, a
split glyph only ever appears as a singleton token, no spaces, `-`/`=` occur
only as a token's first character, and `>` only as its last. -/
def goodToken (t : String) : Prop :=
  t.data ≠ [] ∧
  (∀ c ∈ t.data, c ∈ glyphChars → t.data = [c]) ∧
  (' ' ∉ t.data) ∧
  (∀ c ∈ t.data.tail, c ≠ '-' ∧ c ≠ '=') ∧
  (∀ c ∈ t.data.dropLast, c ≠ '>')

/-- Invariant of the pending run inside the tokenizer loop. -/
def goodCurrent (cur : List Char) : Prop :=
  (∀ c ∈ cur, c ∉ glyphChars ∧ c ≠ ' ' ∧ c ≠ '>') ∧
  (∀ c ∈ cur.tail, c ≠ '-' ∧ c ≠ '=')

theorem goodToken_flush (cur : List Char) (h : goodCurrent cur) (hne : cur ≠ []) :
    goodToken (String.mk cur) := by
  obtain ⟨h1, h2⟩ := h
  refine ⟨hne, ?_, ?_, h2, ?_⟩
  · intro c hc hg
    exact absurd hg (h1 c hc).1
  · intro hsp
    exact (h1 _ hsp).2.1 rfl
  · intro c hc
    exact (h1 c (List.dropLast_subset _ hc)).2.2

theorem flush_good (cur : List Char) (tokens : List String) (hcur : goodCurrent cur)
    (htok : ∀ t ∈ tokens, goodToken t) :
    ∀ t ∈ tokens ++ (if cur.isEmpty then [] else [String.mk cur]), goodToken t := by
  intro t ht
  rcases List.mem_append.1 ht with h | h
  · exact htok t h
  · by_cases hne : cur.isEmpty
    · simp [hne] at h
    · simp [hne] at h
      subst h
      exact goodToken_flush cur hcur (by simpa [List.isEmpty_iff] using hne)

theorem goodToken_glyph (c : Char) (hg : c ∈ glyphChars) : goodToken (String.mk [c]) := by
  refine ⟨by simp, by simp, ?_, by simp [strDataMk], by simp [strDataMk]⟩
  intro hsp
  rw [strDataMk] at hsp
  simp at hsp
  subst hsp
  exact absurd hg (by decide)

theorem goodToken_gtEnd (cur : List Char) (h : goodCurrent cur) :
    goodToken (String.mk (cur ++ ['>'])) := by
  obtain ⟨h1, h2⟩ := h
  refine ⟨by simp, ?_, ?_, ?_, ?_⟩
  · intro d hd hdg
    rw [strDataMk] at hd
    rcases List.mem_append.1 hd with hd | hd
    · exact absurd hdg (h1 d hd).1
    · simp at hd
      subst hd
      exact absurd hdg (by decide)
  · intro hsp
    rw [strDataMk] at hsp
    rcases List.mem_append.1 hsp with hsp | hsp
    · exact (h1 _ hsp).2.1 rfl
    · simp at hsp
  · rw [strDataMk]
    cases cur with
    | nil => simp
    | cons a as =>
      intro d hd
      simp at hd
      rcases hd with hd | hd
      · exact h2 d (by simpa using hd)
      · subst hd
        exact ⟨by decide, by decide⟩
  · rw [strDataMk, List.dropLast_concat]
    intro d hd
    exact (h1 d hd).2.2

theorem tokenizeGo_good : ∀ (text current : List Char) (tokens : List String),
    goodCurrent current → (∀ t ∈ tokens, goodToken t) →
    ∀ t ∈ tokenizeGo text current tokens, goodToken t := by
  intro text
  induction text with
  | nil =>
    intro current tokens hcur htok t ht
    simp only [tokenizeGo] at ht
    exact flush_good current tokens hcur htok t ht
  | cons c rest ih =>
    intro current tokens hcur htok t ht
    simp only [tokenizeGo] at ht
    by_cases hg : c ∈ glyphChars
    · rw [if_pos hg] at ht
      refine ih [] _ ⟨by simp, by simp⟩ ?_ t ht
      intro u hu
      rcases List.mem_append.1 hu with hu | hu
      · exact flush_good current tokens hcur htok u hu
      · simp at hu
        subst hu
        exact goodToken_glyph c hg
    · rw [if_neg hg] at ht
      by_cases hde : c = '-' ∨ c = '='
      · rw [if_pos hde] at ht
        refine ih [c] _ ⟨?_, by simp⟩ (flush_good current tokens hcur htok) t ht
        intro d hd
        simp at hd
        subst hd
        rcases hde with h | h <;> subst h <;> exact ⟨by decide, by decide, by decide⟩
      · rw [if_neg hde] at ht
        by_cases hgt : c = '>'
        · rw [if_pos hgt] at ht
          subst hgt
          refine ih [] _ ⟨by simp, by simp⟩ ?_ t ht
          intro u hu
          rcases List.mem_append.1 hu with hu | hu
          · exact htok u hu
          · simp at hu
            subst hu
            exact goodToken_gtEnd current hcur
        · rw [if_neg hgt] at ht
          by_cases hsp : c = ' '
          · rw [if_pos hsp] at ht
            exact ih [] _ ⟨by simp, by simp⟩ (flush_good current tokens hcur htok) t ht
          · rw [if_neg hsp] at ht
            refine ih (current ++ [c]) _ ⟨?_, ?_⟩ htok t ht
            · intro d hd
              rcases List.mem_append.1 hd with hd | hd
              · exact hcur.1 d hd
              · simp at hd
                subst hd
                exact ⟨hg, hsp, hgt⟩
            · intro d hd
              cases current with
              | nil => simp at hd
              | cons a as =>
                simp at hd
                rcases hd with hd | hd
                · exact hcur.2 d (by simpa using hd)
                · subst hd
                  exact not_or.1 hde

theorem tokenizeGo_join : ∀ (text current : List Char) (tokens : List String),
    (tokenizeGo text current tokens).flatMap String.data =
      tokens.flatMap String.data ++ current ++ text.filter (fun d => !(d == ' ')) := by
  intro text
  induction text with
  | nil =>
    intro current tokens
    by_cases hne : current.isEmpty
    · have h0 : current = [] := List.isEmpty_iff.1 hne
      subst h0
      simp [tokenizeGo]
    · simp [tokenizeGo, hne, strDataMk]
  | cons c rest ih =>
    intro current tokens
    simp only [tokenizeGo]
    by_cases hg : c ∈ glyphChars
    · have hb : (c == ' ') = false := by
        refine beq_eq_false_iff_ne.mpr ?_
        intro h
        subst h
        exact absurd hg (by decide)
      rw [if_pos hg]
      by_cases hne : current.isEmpty
      · have h0 : current = [] := List.isEmpty_iff.1 hne
        subst h0
        simp [ih, List.filter_cons, hb, strDataMk]
      · simp [ih, hne, List.filter_cons, hb, strDataMk]
    · rw [if_neg hg]
      by_cases hde : c = '-' ∨ c = '='
      · have hb : (c == ' ') = false := by
          refine beq_eq_false_iff_ne.mpr ?_
          rcases hde with h | h <;> subst h <;> decide
        rw [if_pos hde]
        by_cases hne : current.isEmpty
        · have h0 : current = [] := List.isEmpty_iff.1 hne
          subst h0
          simp [ih, List.filter_cons, hb, strDataMk]
        · simp [ih, hne, List.filter_cons, hb, strDataMk]
      · rw [if_neg hde]
        by_cases hgt : c = '>'
        · subst hgt
          rw [if_pos rfl]
          simp [ih, List.filter_cons, strDataMk]
        · rw [if_neg hgt]
          by_cases hsp : c = ' '
          · subst hsp
            rw [if_pos rfl]
            by_cases hne : current.isEmpty
            · have h0 : current = [] := List.isEmpty_iff.1 hne
              subst h0
              simp [ih, List.filter_cons, strDataMk]
            · simp [ih, hne, List.filter_cons, strDataMk]
          · have hb : (c == ' ') = false := beq_eq_false_iff_ne.mpr hsp
            rw [if_neg hsp]
            simp [ih, List.filter_cons, hb]


/-- C4 counterexample: the input `"A-B"` contains none of the split glyphs,
no whitespace and no `->`/`=>`, so the claim demands the single element token
`["A-B"]`; `tokenize` instead flushes the pending run before the `-` and
returns `["A", "-B"]`. -/
theorem C4_tokenize_counterexample :
    tokenize "A-B" = ["A", "-B"] ∧ (["A", "-B"] == ["A-B"]) = false := by
  constructor
  · rfl
  · decide

/-- C4 (amended): `tokenize` splits at the single glyphs (each emitted as a
singleton token), at spaces, and additionally starts a new token before every
`-` or `=` and ends the current token after every `>` — so `->`/`=>` become
their own tokens, but any other run containing `-`, `=` or `>` is split
rather than kept as a single element token.  Every emitted token is nonempty,
glyph-free unless it is a singleton glyph, and space-free, with `-`/`=` only
in head position and `>` only in last position; apart from dropped spaces,
the tokens concatenate back to the input. -/
theorem C4_amended_tokenize :
    (∀ s : String, (tokenize s).flatMap String.data = s.data.filter (fun d => !(d == ' '))) ∧
    (∀ (s : String) (t : String), t ∈ tokenize s → goodToken t) ∧
    tokenize "A -> B" = ["A", "->", "B"] ∧
    tokenize "A=>B" = ["A", "=>", "B"] ∧
    tokenize "A-B" = ["A", "-B"] := by
  refine ⟨?_, ?_, rfl, rfl, rfl⟩
  · intro s
    simpa using tokenizeGo_join s.data [] []
  · intro s t ht
    exact tokenizeGo_good s.data [] [] ⟨by simp, by simp⟩ (by simp) t ht

theorem C4_amended_tokenize_witness :
    goodToken "->" ∧ (tokenize "A -> B").flatMap String.data = ['A', '-', '>', 'B'] :=
  ⟨C4_amended_tokenize.2.1 "A -> B" "->" (by rw [C4_amended_tokenize.2.2.1]; simp),
   by rw [C4_amended_tokenize.1 "A -> B"]; rfl⟩


/-- `TokenList = List[Union[Rule, str]]` from parser.py. -/
inductive Tok where
  | str (s : String)
  | rule (r : Rule)

/-- The exceptions `parse`/`to_rule` can raise: the named `ValueError`s and
`IndexError` (an out-of-range list subscript). -/
inductive PErr where
  | valueError (msg : String)
  | indexError
  deriving DecidableEq

/-- The unary-operator classes pushed on the stack of
`transform_token_list`. -/
inductive Unary where
  | ufirst
  | ulast
  | unot

def applyUnary : Unary → Rule → Rule
  | .ufirst, r => .first r
  | .ulast, r => .last r
  | .unot, r => .not r

/-- `while stack: token = stack.pop()(token)` — the stack's top is the list
head, so the most recently pushed operator is applied innermost, as
`pop()` does. -/
def applyStack : List Unary → Rule → Rule
  | [], r => r
  | u :: rest, r => applyStack rest (applyUnary u r)

/-- The token loop of `transform_token_list`: `^`/`$`/`~` push `First`/
`Last`/`Not`; any other token becomes a Rule (strings through `Has`), takes
all pending unary wrappers, and is appended to `new_tokens`.  At the end a
non-empty stack is the "invalid operator position" `ValueError`, several
rules combine with `And`, none at all is the Python `new_tokens[0]`
`IndexError` (unreachable through `to_rule`, which rejects empty input
first). -/
def transformGo : List Tok → List Rule → List Unary → Except PErr Rule
  | [], newTokens, stack =>
      if !stack.isEmpty then .error (.valueError "Invalid syntax: invalid operator position")
      else
        match newTokens with
        | [] => .error .indexError
        | [t] => .ok t
        | t :: ts => .ok (.and t ts)
  | tok :: rest, newTokens, stack =>
      match tok with
      | .str "^" => transformGo rest newTokens (.ufirst :: stack)
      | .str "$" => transformGo rest newTokens (.ulast :: stack)
      | .str "~" => transformGo rest newTokens (.unot :: stack)
      | .str s => transformGo rest (newTokens ++ [applyStack stack (.has s)]) []
      | .rule r => transformGo rest (newTokens ++ [applyStack stack r]) []

/-- `transform_token_list(tokens)` from parser.py. -/
def transform_token_list (tokens : List Tok) : Except PErr Rule := transformGo tokens [] []

/-- The predicate `token == v` used by `list.index` in `index_of`: a Rule
compares unequal to any string. -/
def isStrTok (v : String) : Tok → Bool
  | .str s => s == v
  | .rule _ => false

/-- `index_of(list_obj, value)` from parser.py: position of the first token
equal to the string, `none` for Python's `-1` sentinel. -/
def index_of (tokens : List Tok) (v : String) : Option Nat :=
  match tokens with
  | [] => none
  | t :: rest => if isStrTok v t then some 0 else (index_of rest v).map (· + 1)

theorem index_of_lt {tokens : List Tok} {v : String} {i : Nat}
    (h : index_of tokens v = some i) : i < tokens.length := by
  induction tokens generalizing i with
  | nil => simp [index_of] at h
  | cons t rest ih =>
    rw [index_of] at h
    by_cases hp : isStrTok v t
    · simp [hp] at h
      simp only [List.length_cons]
      omega
    · simp [hp] at h
      obtain ⟨j, hj, rfl⟩ := h
      have := ih hj
      simp
      omega

/-- `to_rule(tokens)` from parser.py: reject empty lists, then split at the
first occurrence of each binary operator in precedence order `->`, `=>`,
`|`, `&`, recursing on both sides; otherwise hand over to
`transform_token_list`. -/
def to_rule (tokens : List Tok) : Except PErr Rule :=
  if tokens.isEmpty then .error (.valueError "Invalid syntax: operator split mismatch")
  else
    match h1 : index_of tokens "->" with
    | some pos => do
        let l ← to_rule (tokens.take pos)
        let r ← to_rule (tokens.drop (pos + 1))
        pure (.seq l [r] false)
    | none =>
      match h2 : index_of tokens "=>" with
      | some pos => do
          let l ← to_rule (tokens.take pos)
          let r ← to_rule (tokens.drop (pos + 1))
          pure (.seq l [r] true)
      | none =>
        match h3 : index_of tokens "|" with
        | some pos => do
            let l ← to_rule (tokens.take pos)
            let r ← to_rule (tokens.drop (pos + 1))
            pure (.or l [r])
        | none =>
          match h4 : index_of tokens "&" with
          | some pos => do
              let l ← to_rule (tokens.take pos)
              let r ← to_rule (tokens.drop (pos + 1))
              pure (.intersect l [r])
          | none => transform_token_list tokens
termination_by tokens.length
decreasing_by
  all_goals simp only [List.length_take, List.length_drop]
  all_goals first
    | (have h9 := index_of_lt h1; omega)
    | (have h9 := index_of_lt h2; omega)
    | (have h9 := index_of_lt h3; omega)
    | (have h9 := index_of_lt h4; omega)

/-- Python's substring test `a in b`. -/
def isSubstr (a b : String) : Bool := decide (a.data <:+: b.data)

/-- The close-bracket handler inside `parse`: `temp` is the popped group
(with its opening token at the head), `closing` the closing token.  A group
opened with `\x7b`/`[` is a Slice: `temp[1]` (IndexError when absent) must be a
non-operator string and becomes the slice element, remaining tokens combine
into one attached subrule (`result << inner` appends it); a `(` group
recombines through `to_rule`. -/
def closeGroup (temp : List Tok) (closing : String) : Except PErr Rule :=
  match temp with
  | [] => .error .indexError
  | t0 :: restTemp =>
    match t0 with
    | .str s0 =>
      if isSubstr s0 "\x7b[" then
        match restTemp with
        | [] => .error .indexError
        | t1 :: rest2 =>
          match t1 with
          | .rule _ =>
              .error (.valueError "Invalid syntax: operator not supported as first element of slice")
          | .str s1 =>
            if isSubstr s1 "|&^$~->=>" then
              .error (.valueError "Invalid syntax: operator not supported as first element of slice")
            else if rest2.isEmpty then
              .ok (.slice s1 [] (s0 == "\x7b") (closing == "\x7d"))
            else
              match to_rule rest2 with
              | .error e => .error e
              | .ok inner => .ok (.slice s1 [inner] (s0 == "\x7b") (closing == "\x7d"))
      else to_rule restTemp
    | .rule _ => to_rule restTemp

/-- The token loop of `parse`: a stack of in-progress token lists (top at the
head); open brackets push a fresh list, close brackets pop and combine via
`closeGroup`, anything else is appended to the top list; at the end exactly
one list must remain, combined by `to_rule`. -/
def parseLoop : List String → List (List Tok) → Except PErr Rule
  | [], stack =>
      match stack with
      | [top] => to_rule top
      | _ => .error (.valueError "Invalid syntax: unclosed group/slice")
  | token :: rest, stack =>
      if isSubstr token "(\x7b[" then parseLoop rest ([Tok.str token] :: stack)
      else if isSubstr token ")\x7d]" then
        match stack with
        | [] => .error .indexError
        | [_] => .error (.valueError ("Invalid syntax: extra " ++ token ++ " found"))
        | temp :: top :: more =>
          match closeGroup temp token with
          | .error e => .error e
          | .ok result => parseLoop rest ((top ++ [Tok.rule result]) :: more)
      else
        match stack with
        | [] => .error .indexError
        | top :: more => parseLoop rest ((top ++ [Tok.str token]) :: more)

/-- `parse(text)` from parser.py. -/
def parse (text : String) : Except PErr Rule := parseLoop (tokenize text) [[]]


theorem index_of_append (ts1 ts2 : List Tok) (v : String)
    (h : ∀ t ∈ ts1, isStrTok v t = false) :
    index_of (ts1 ++ Tok.str v :: ts2) v = some ts1.length := by
  induction ts1 with
  | nil => simp [index_of, isStrTok]
  | cons t rest ih =>
    rw [List.cons_append, index_of, h t (by simp)]
    simp [ih (fun u hu => h u (by simp [hu]))]

theorem index_of_none (tokens : List Tok) (v : String)
    (h : ∀ t ∈ tokens, isStrTok v t = false) : index_of tokens v = none := by
  induction tokens with
  | nil => rfl
  | cons t rest ih =>
    rw [index_of, h t (by simp)]
    simp [ih (fun u hu => h u (by simp [hu]))]

theorem take_append_cons (ts1 ts2 : List Tok) (v : Tok) :
    (ts1 ++ v :: ts2).take ts1.length = ts1 := by
  simp

theorem drop_append_cons (ts1 ts2 : List Tok) (v : Tok) :
    (ts1 ++ v :: ts2).drop (ts1.length + 1) = ts2 := by
  rw [List.append_cons]
  have hlen : ts1.length + 1 = (ts1 ++ [v]).length := by simp
  rw [hlen, List.drop_left]

theorem to_rule_split_arrow (ts1 ts2 : List Tok)
    (h : ∀ t ∈ ts1, isStrTok "->" t = false) :
    to_rule (ts1 ++ Tok.str "->" :: ts2) =
      (do
        let l ← to_rule ts1
        let r ← to_rule ts2
        pure (Rule.seq l [r] false)) := by
  rw [to_rule]
  rw [index_of_append ts1 ts2 "->" h]
  simp [take_append_cons, drop_append_cons]

theorem to_rule_split_same (ts1 ts2 : List Tok)
    (hno1 : ∀ t ∈ ts1, isStrTok "->" t = false ∧ isStrTok "=>" t = false)
    (hno2 : ∀ t ∈ ts2, isStrTok "->" t = false) :
    to_rule (ts1 ++ Tok.str "=>" :: ts2) =
      (do
        let l ← to_rule ts1
        let r ← to_rule ts2
        pure (Rule.seq l [r] true)) := by
  rw [to_rule]
  rw [index_of_none _ "->" (by
    intro t ht
    rcases List.mem_append.1 ht with ht | ht
    · exact (hno1 t ht).1
    · rcases List.mem_cons.1 ht with rfl | ht
      · rfl
      · exact hno2 t ht)]
  rw [index_of_append ts1 ts2 "=>" (fun t ht => (hno1 t ht).2)]
  simp [take_append_cons, drop_append_cons]

theorem to_rule_split_or (ts1 ts2 : List Tok)
    (hno1 : ∀ t ∈ ts1, isStrTok "->" t = false ∧ isStrTok "=>" t = false ∧
      isStrTok "|" t = false)
    (hno2 : ∀ t ∈ ts2, isStrTok "->" t = false ∧ isStrTok "=>" t = false) :
    to_rule (ts1 ++ Tok.str "|" :: ts2) =
      (do
        let l ← to_rule ts1
        let r ← to_rule ts2
        pure (Rule.or l [r])) := by
  rw [to_rule]
  rw [index_of_none _ "->" (by
    intro t ht
    rcases List.mem_append.1 ht with ht | ht
    · exact (hno1 t ht).1
    · rcases List.mem_cons.1 ht with rfl | ht
      · rfl
      · exact (hno2 t ht).1)]
  rw [index_of_none _ "=>" (by
    intro t ht
    rcases List.mem_append.1 ht with ht | ht
    · exact (hno1 t ht).2.1
    · rcases List.mem_cons.1 ht with rfl | ht
      · rfl
      · exact (hno2 t ht).2)]
  rw [index_of_append ts1 ts2 "|" (fun t ht => (hno1 t ht).2.2)]
  simp [take_append_cons, drop_append_cons]

theorem to_rule_split_and (ts1 ts2 : List Tok)
    (hno1 : ∀ t ∈ ts1, isStrTok "->" t = false ∧ isStrTok "=>" t = false ∧
      isStrTok "|" t = false ∧ isStrTok "&" t = false)
    (hno2 : ∀ t ∈ ts2, isStrTok "->" t = false ∧ isStrTok "=>" t = false ∧
      isStrTok "|" t = false) :
    to_rule (ts1 ++ Tok.str "&" :: ts2) =
      (do
        let l ← to_rule ts1
        let r ← to_rule ts2
        pure (Rule.intersect l [r])) := by
  rw [to_rule]
  rw [index_of_none _ "->" (by
    intro t ht
    rcases List.mem_append.1 ht with ht | ht
    · exact (hno1 t ht).1
    · rcases List.mem_cons.1 ht with rfl | ht
      · rfl
      · exact (hno2 t ht).1)]
  rw [index_of_none _ "=>" (by
    intro t ht
    rcases List.mem_append.1 ht with ht | ht
    · exact (hno1 t ht).2.1
    · rcases List.mem_cons.1 ht with rfl | ht
      · rfl
      · exact (hno2 t ht).2.1)]
  rw [index_of_none _ "|" (by
    intro t ht
    rcases List.mem_append.1 ht with ht | ht
    · exact (hno1 t ht).2.2.1
    · rcases List.mem_cons.1 ht with rfl | ht
      · rfl
      · exact (hno2 t ht).2.2)]
  rw [index_of_append ts1 ts2 "&" (fun t ht => (hno1 t ht).2.2.2)]
  simp [take_append_cons, drop_append_cons]


/-- C10: parsing the input "[]" (a slice bracket pair with no slice element)
raises `IndexError` from the `temp[1]` subscript, not one of the named
`ValueError` parse errors — the parse-error taxonomy does not cover the
empty slice. -/
theorem C10_parse_empty_slice :
    parse "[]" = Except.error PErr.indexError ∧
    (match parse "[]" with
     | Except.error (PErr.valueError _) => False
     | _ => True) :=
  ⟨rfl, trivial⟩

/-- C7: `to_rule` splits a flat token list at the first occurrence of each
binary operator in descending precedence order `->`, `=>`, `|`, `&` (the
`&` glyph building a positional `Intersect`), recursing on both sides;
`transform_token_list` then resolves prefix `^`/`$`/`~` onto the following
term and joins several remaining terms with an implicit `And`; consequently
`parse "A -> B"` is `Has("A") >> Has("B")` and `parse "[A B]"` is
`Slice("A") << Has("B")`. -/
theorem C7_parser_combination :
    (∀ ts1 ts2 : List Tok, (∀ t ∈ ts1, isStrTok "->" t = false) →
      to_rule (ts1 ++ Tok.str "->" :: ts2) = (do
        let l ← to_rule ts1
        let r ← to_rule ts2
        pure (Rule.seq l [r] false))) ∧
    (∀ ts1 ts2 : List Tok,
      (∀ t ∈ ts1, isStrTok "->" t = false ∧ isStrTok "=>" t = false) →
      (∀ t ∈ ts2, isStrTok "->" t = false) →
      to_rule (ts1 ++ Tok.str "=>" :: ts2) = (do
        let l ← to_rule ts1
        let r ← to_rule ts2
        pure (Rule.seq l [r] true))) ∧
    (∀ ts1 ts2 : List Tok,
      (∀ t ∈ ts1, isStrTok "->" t = false ∧ isStrTok "=>" t = false ∧
        isStrTok "|" t = false) →
      (∀ t ∈ ts2, isStrTok "->" t = false ∧ isStrTok "=>" t = false) →
      to_rule (ts1 ++ Tok.str "|" :: ts2) = (do
        let l ← to_rule ts1
        let r ← to_rule ts2
        pure (Rule.or l [r]))) ∧
    (∀ ts1 ts2 : List Tok,
      (∀ t ∈ ts1, isStrTok "->" t = false ∧ isStrTok "=>" t = false ∧
        isStrTok "|" t = false ∧ isStrTok "&" t = false) →
      (∀ t ∈ ts2, isStrTok "->" t = false ∧ isStrTok "=>" t = false ∧
        isStrTok "|" t = false) →
      to_rule (ts1 ++ Tok.str "&" :: ts2) = (do
        let l ← to_rule ts1
        let r ← to_rule ts2
        pure (Rule.intersect l [r]))) ∧
    to_rule [Tok.str "~", Tok.str "A", Tok.str "B"] =
      Except.ok (Rule.and (Rule.not (.has "A")) [.has "B"]) ∧
    parse "A -> B" = Except.ok (Rule.seq (.has "A") [.has "B"] false) ∧
    parse "[A B]" = Except.ok (Rule.slice "A" [.has "B"] false false) := by
  refine ⟨to_rule_split_arrow, to_rule_split_same, to_rule_split_or, to_rule_split_and,
    ?_, ?_, ?_⟩
  · rw [to_rule]
    simp [index_of, isStrTok, transform_token_list, transformGo, applyStack, applyUnary]
  · simp +decide [parse, tokenize, tokenizeGo, parseLoop, isSubstr]
    rw [show [Tok.str "A", Tok.str "->", Tok.str "B"] =
      [Tok.str "A"] ++ Tok.str "->" :: [Tok.str "B"] from rfl]
    rw [to_rule_split_arrow _ _ (by simp [isStrTok])]
    rw [to_rule, to_rule]
    simp [index_of, isStrTok, transform_token_list, transformGo, applyStack]
    rfl
  · simp +decide [parse, tokenize, tokenizeGo, parseLoop, isSubstr, closeGroup]
    simp [to_rule, index_of, isStrTok, transform_token_list, transformGo, applyStack]

theorem C7_parser_combination_witness :
    to_rule ([Tok.str "A"] ++ Tok.str "->" :: [Tok.str "B"]) = (do
      let l ← to_rule [Tok.str "A"]
      let r ← to_rule [Tok.str "B"]
      pure (Rule.seq l [r] false)) ∧
    to_rule ([Tok.str "A"] ++ Tok.str "=>" :: [Tok.str "B"]) = (do
      let l ← to_rule [Tok.str "A"]
      let r ← to_rule [Tok.str "B"]
      pure (Rule.seq l [r] true)) ∧
    to_rule ([Tok.str "A"] ++ Tok.str "|" :: [Tok.str "B"]) = (do
      let l ← to_rule [Tok.str "A"]
      let r ← to_rule [Tok.str "B"]
      pure (Rule.or l [r])) ∧
    to_rule ([Tok.str "A"] ++ Tok.str "&" :: [Tok.str "B"]) = (do
      let l ← to_rule [Tok.str "A"]
      let r ← to_rule [Tok.str "B"]
      pure (Rule.intersect l [r])) :=
  ⟨C7_parser_combination.1 [Tok.str "A"] [Tok.str "B"] (by simp [isStrTok]),
   C7_parser_combination.2.1 [Tok.str "A"] [Tok.str "B"] (by simp [isStrTok])
     (by simp [isStrTok]),
   C7_parser_combination.2.2.1 [Tok.str "A"] [Tok.str "B"] (by simp [isStrTok])
     (by simp [isStrTok]),
   C7_parser_combination.2.2.2.1 [Tok.str "A"] [Tok.str "B"] (by simp [isStrTok])
     (by simp [isStrTok])⟩


/-- First-match lookup of `ReplaceVariables.visit_has`/`visit_slice`:
`for old, new in replaces.items(): if element == old: element = new; break`
(the dict is modelled as its insertion-ordered key/value list). -/
def replaceElem (replaces : List (String × String)) (e : String) : String :=
  match replaces.find? (fun p => p.1 == e) with
  | some p => p.2
  | none => e

mutual

/-- The value computed by `ReplaceVariables(replaces).visit(rule)` (visitor.py):
a transforming traversal that rewrites the element of every `Has`/`Slice`
node through the replace table and rebuilds each node with its visited
children (the Python version deep-copies first and mutates the copy; the heap
model below accounts for that — this is the resulting tree). -/
def replaceRule (replaces : List (String × String)) : Rule → Rule
  | .has e => .has (replaceElem replaces e)
  | .slice e subs opf opl =>
      .slice (replaceElem replaces e) (replaceRuleList replaces subs) opf opl
  | .seq hd tl same => .seq (replaceRule replaces hd) (replaceRuleList replaces tl) same
  | .and hd tl => .and (replaceRule replaces hd) (replaceRuleList replaces tl)
  | .or hd tl => .or (replaceRule replaces hd) (replaceRuleList replaces tl)
  | .not r => .not (replaceRule replaces r)
  | .intersect hd tl => .intersect (replaceRule replaces hd) (replaceRuleList replaces tl)
  | .first r => .first (replaceRule replaces r)
  | .last r => .last (replaceRule replaces r)
termination_by r => 2 * sizeOf r + 1
decreasing_by all_goals (simp_wf; try omega)

def replaceRuleList (replaces : List (String × String)) : List Rule → List Rule
  | [] => []
  | r :: rest => replaceRule replaces r :: replaceRuleList replaces rest
termination_by l => 2 * sizeOf l
decreasing_by all_goals (simp_wf; try omega)

end

/-- Python dict assignment `d[k] = v`: overwrite in place when the key
exists, otherwise append (insertion order preserved). -/
def dictSet (d : List (String × String)) (k v : String) : List (String × String) :=
  if d.any (fun p => p.1 == k) then d.map (fun p => if p.1 == k then (k, v) else p)
  else d ++ [(k, v)]

/-- `create_replace(replace, old_name, new_name, in_prefix, out_prefix)` from
visitor.py: map the bare name and, when the prefixes are nonempty, the
prefixed forms. -/
def create_replace (replace : List (String × String)) (old_name new_name inPref outPref : String) :
    List (String × String) :=
  let r1 := dictSet replace old_name new_name
  let r2 := if inPref.isEmpty then r1 else dictSet r1 (inPref ++ old_name) (inPref ++ new_name)
  if outPref.isEmpty then r2 else dictSet r2 (outPref ++ old_name) (outPref ++ new_name)

/-- `TBinding = Union[Tuple[str, str], Unbound]` from counter.py: a variable
bound to an element, or the Unbound sentinel.  `bind[-1]` of an Unbound is
`id(self)`, a number distinct from every other object's id; the `uid` models
it (`sequence_bindings` creates one Unbound per variable slot, so slots carry
distinct uids). -/
inductive PBinding where
  | bound (var : String) (elem : String)
  | unbound (uid : Nat)
  deriving DecidableEq

/-- `bind[-1]`: the bound element, or the Unbound's object id. -/
def bindKey : PBinding → String ⊕ Nat
  | .bound _ e => .inl e
  | .unbound u => .inr u

/-- `binding_options` from `Bindings.sequence_bindings`: per declared
variable (in declaration order), the candidates `varnames ∩ sequence_names`
as (var, element) bindings, or a fresh `Unbound` when the intersection is
empty. -/
def bindingOptions (allBindings : List (String × List String)) (seqNames : List String) :
    List (List PBinding) :=
  allBindings.enum.map fun p =>
    match (p.2.2.filter (fun e => seqNames.contains e)).map (PBinding.bound p.2.1) with
    | [] => [PBinding.unbound p.1]
    | l => l

/-- The binding-tuples `sequence_bindings` actually processes: the cartesian
product of the per-variable candidates, minus (in unique mode) the tuples
whose keys (`bind[-1]`) collide — Python tests
`len({bind[-1] for bind in bindings}) != len(bindings)`. -/
def acceptedTuples (allBindings : List (String × List String)) (seqNames : List String)
    (unique : Bool) : List (List PBinding) :=
  let options := bindingOptions allBindings seqNames
  if options.isEmpty then []
  else (pyProduct options).filter fun bindings =>
    !(unique && !((bindings.map bindKey).dedup.length == bindings.length))

/-- `Bindings.sequence_bindings(sequence_names, rules)` from counter.py for
one call: enumerate binding-tuples, skip key collisions in unique mode,
build the rename table from the bound pairs via `create_replace`, run
`ReplaceVariables` over every rule and yield the `(original, rewritten)`
pairs that differ (`new_rule != rule`).  The `enacted` cache only memoizes
across calls and cannot change a single call's yield. -/
def sequence_bindings (allBindings : List (String × List String)) (seqNames : List String)
    (rules : List Rule) (unique : Bool) (inPref outPref : String) : List (Rule × Rule) :=
  let options := bindingOptions allBindings seqNames
  if options.isEmpty then []
  else (pyProduct options).flatMap fun bindings =>
    if unique && !((bindings.map bindKey).dedup.length == bindings.length) then []
    else
      let replaces := bindings.foldl (fun acc b =>
        match b with
        | .unbound _ => acc
        | .bound old new => create_replace acc old new inPref outPref) []
      rules.filterMap fun r =>
        let new_rule := replaceRule replaces r
        if pyEq new_rule r then none else some (r, new_rule)

theorem dedup_length_eq_iff {α : Type} [DecidableEq α] (l : List α) :
    (l.dedup.length == l.length) = true ↔ l.Nodup := by
  rw [beq_iff_eq]
  constructor
  · intro h
    have hsub : List.Sublist l.dedup l := List.dedup_sublist l
    have heq : l.dedup = l := hsub.eq_of_length h
    rw [← heq]
    exact List.nodup_dedup l
  · intro h
    rw [List.dedup_eq_self.mpr h]


theorem flatMap_if_filter {α β : Type} (l : List α) (p : α → Bool) (f : α → List β) :
    (l.flatMap fun x => if p x then [] else f x) = (l.filter fun x => !p x).flatMap f := by
  induction l with
  | nil => rfl
  | cons a as ih =>
    by_cases h : p a = true <;> simp [List.filter_cons, h, ih]

/-- C8: in default unique mode the Binding Engine never processes a
binding-tuple in which two distinct variable slots are bound to the same
concrete element, and it processes every product tuple whose concrete
bindings are pairwise distinct; the yielded rewrites are exactly the
per-tuple `(original, rewritten)` pairs over the accepted tuples.  With
variables X, Y over vocabulary {A, B} both present in the trace, the
accepted tuples are exactly (X=A, Y=B) and (X=B, Y=A); (X=A, Y=A) and
(X=B, Y=B) are rejected. -/
theorem C8_unique_binding_tuples :
    (∀ (ab : List (String × List String)) (sn : List String) (t : List PBinding)
      (i j : Nat) (hi : i < t.length) (hj : j < t.length) (v1 v2 e : String),
      i ≠ j → t[i] = PBinding.bound v1 e → t[j] = PBinding.bound v2 e →
      t ∉ acceptedTuples ab sn true) ∧
    (∀ (ab : List (String × List String)) (sn : List String)
      (pairs : List (String × String)),
      bindingOptions ab sn ≠ [] →
      (pairs.map fun p => PBinding.bound p.1 p.2) ∈ pyProduct (bindingOptions ab sn) →
      (pairs.map Prod.snd).Nodup →
      (pairs.map fun p => PBinding.bound p.1 p.2) ∈ acceptedTuples ab sn true) ∧
    (∀ (ab : List (String × List String)) (sn : List String) (rules : List Rule)
      (inP outP : String),
      sequence_bindings ab sn rules true inP outP =
        (acceptedTuples ab sn true).flatMap fun bindings =>
          rules.filterMap fun r =>
            let new_rule := replaceRule (bindings.foldl (fun acc b =>
              match b with
              | .unbound _ => acc
              | .bound old new => create_replace acc old new inP outP) []) r
            if pyEq new_rule r then none else some (r, new_rule)) ∧
    acceptedTuples [("X", ["A", "B"]), ("Y", ["A", "B"])] ["A", "B"] true =
      [[.bound "X" "A", .bound "Y" "B"], [.bound "X" "B", .bound "Y" "A"]] := by
  refine ⟨?_, ?_, ?_, ?_⟩
  · intro ab sn t i j hi hj v1 v2 e hij hti htj hmem
    rw [acceptedTuples] at hmem
    by_cases hoe : (bindingOptions ab sn).isEmpty
    · simp [hoe] at hmem
    · simp only [hoe, Bool.false_eq_true, if_false] at hmem
      rw [List.mem_filter] at hmem
      obtain ⟨hprod, hcond⟩ := hmem
      simp only [Bool.true_and] at hcond
      have hcond2 : ((t.map bindKey).dedup.length == t.length) = true := by
        simpa using hcond
      have hnd : (t.map bindKey).Nodup := by
        apply (dedup_length_eq_iff (t.map bindKey)).1
        rw [beq_iff_eq] at hcond2 ⊢
        rw [List.length_map]
        exact hcond2
      have hlen : (t.map bindKey).length = t.length := List.length_map _ _
      have hKi : (t.map bindKey)[i]? = some (Sum.inl e) := by
        rw [List.getElem?_map, List.getElem?_eq_getElem hi, hti]
        rfl
      have hKj : (t.map bindKey)[j]? = some (Sum.inl e) := by
        rw [List.getElem?_map, List.getElem?_eq_getElem hj, htj]
        rfl
      have hnd2 := List.nodup_iff_getElem?_ne_getElem?.1 hnd
      rcases lt_trichotomy i j with hlt | heq | hgt
      · exact hnd2 i j hlt (by rw [hlen]; exact hj) (by rw [hKi, hKj])
      · exact hij heq
      · exact hnd2 j i hgt (by rw [hlen]; exact hi) (by rw [hKj, hKi])
  · intro ab sn pairs hne hprod hnd
    rw [acceptedTuples]
    have hoe : (bindingOptions ab sn).isEmpty = false := by
      cases hopt : bindingOptions ab sn with
      | nil => exact absurd hopt hne
      | cons _ _ => rfl
    simp only [hoe, Bool.false_eq_true, if_false]
    rw [List.mem_filter]
    refine ⟨hprod, ?_⟩
    simp only [Bool.true_and, Bool.not_eq_true', Bool.not_eq_false]
    have hK : (pairs.map (fun p => PBinding.bound p.1 p.2)).map bindKey =
        (pairs.map Prod.snd).map Sum.inl := by
      simp [List.map_map]
      exact fun _ _ _ => rfl
    have hKnd : ((pairs.map (fun p => PBinding.bound p.1 p.2)).map bindKey).Nodup := by
      rw [hK]
      exact hnd.map (fun a b h => Sum.inl.inj h)
    have hlen2 : ((pairs.map (fun p => PBinding.bound p.1 p.2)).map bindKey).dedup.length =
        (pairs.map (fun p => PBinding.bound p.1 p.2)).length := by
      rw [List.dedup_eq_self.mpr hKnd]
      simp
    rw [hlen2]
    simp
  · intro ab sn rules inP outP
    rw [sequence_bindings, acceptedTuples]
    by_cases hoe : (bindingOptions ab sn).isEmpty
    · simp [hoe]
    · simp only [hoe, Bool.false_eq_true, if_false]
      rw [flatMap_if_filter]
  · rfl

theorem C8_unique_binding_tuples_witness :
    ([PBinding.bound "X" "A", PBinding.bound "Y" "A"] ∉
      acceptedTuples [("X", ["A", "B"]), ("Y", ["A", "B"])] ["A", "B"] true) ∧
    ([PBinding.bound "X" "A", PBinding.bound "Y" "B"] ∈
      acceptedTuples [("X", ["A", "B"]), ("Y", ["A", "B"])] ["A", "B"] true) ∧
    ([PBinding.bound "X" "B", PBinding.bound "Y" "A"] ∈
      acceptedTuples [("X", ["A", "B"]), ("Y", ["A", "B"])] ["A", "B"] true) :=
  ⟨C8_unique_binding_tuples.1 [("X", ["A", "B"]), ("Y", ["A", "B"])] ["A", "B"]
      [.bound "X" "A", .bound "Y" "A"] 0 1 (by decide) (by decide) "X" "Y" "A"
      (by decide) rfl rfl,
   C8_unique_binding_tuples.2.1 [("X", ["A", "B"]), ("Y", ["A", "B"])] ["A", "B"]
      [("X", "A"), ("Y", "B")] (by decide) (by decide) (by decide),
   C8_unique_binding_tuples.2.1 [("X", ["A", "B"]), ("Y", ["A", "B"])] ["A", "B"]
      [("X", "B"), ("Y", "A")] (by decide) (by decide) (by decide)⟩


/-- Python float values arising in the metrics: an exact rational, or the
`float("nan")` sentinel (`none`) that `divide` produces on division by
zero.  Every number the miner computes is a ratio of small integers, so the
rational model is exact. -/
abbrev Number := Option ℚ

/-- `divide(left, right)` from counter.py: `left / right`, with
`ZeroDivisionError` (denominator 0, NaN numerator or not) giving NaN; any
NaN operand also propagates to NaN. -/
def divide (left right : Number) : Number :=
  if right = some 0 then none
  else
    match left, right with
    | some a, some b => some (a / b)
    | _, _ => none

/-- `AssociationItem` from counter.py (`name`, `lines`, `support`); the name
is `", ".join(map(str, rules))`, `none` when a repr raises. -/
structure AssociationItem where
  name : Option String
  lines : Finset ℕ
  support : Number
  deriving DecidableEq

/-- `AssociationRule` from counter.py. -/
structure AssociationRule where
  lhs : AssociationItem
  rhs : AssociationItem
  confidence : Number
  lift : Number
  deriving DecidableEq

/-- `itertools.combinations(l, k)` in Python's emission order. -/
def combosAux {α : Type} : List α → Nat → List (List α)
  | _, 0 => [[]]
  | [], _ + 1 => []
  | x :: xs, k + 1 => ((combosAux xs k).map (x :: ·)) ++ combosAux xs (k + 1)

/-- `split_rules(rules)` from counter.py: every ordered complementary
nonempty bipartition, sizes 1 .. len-1, lhs indices from
`itertools.combinations`. -/
def split_rules (rules : List Rule) : List (List Rule × List Rule) :=
  let all_indexes := List.range rules.length
  (List.range' 1 (rules.length - 1)).flatMap fun size =>
    (combosAux all_indexes size).map fun indexes =>
      ((all_indexes.filter fun i => indexes.contains i).map fun i => rules.getD i (.has ""),
       (all_indexes.filter fun i => !(indexes.contains i)).map fun i => rules.getD i (.has ""))

/-- `set.intersection(*[result[rule] for rule in rules])`; Python raises on
an empty rule list, which `mine_rules` never passes (modelled as `∅`). -/
def interLines (result : Rule → Finset ℕ) : List Rule → Finset ℕ
  | [] => ∅
  | r :: rs => rs.foldl (fun acc q => acc ∩ result q) (result r)

/-- `", ".join(map(str, rules))` (str falls back to `__repr__`). -/
def joinNames (rules : List Rule) : Option String :=
  (rules.mapM pyRepr).map (String.intercalate ", ")

/-- `mine_rules(sequences, rules, result)` from counter.py: the intersection
item plus one AssociationRule per bipartition, with
`confidence = support(R)/support(lhs)` and `lift = confidence/support(rhs)`
through `divide`. -/
def mine_rules (sequences : List TSeq) (rules : List Rule) (result : Rule → Finset ℕ) :
    AssociationItem × List AssociationRule :=
  let lines := interLines result rules
  let int_item : AssociationItem :=
    ⟨joinNames rules, lines, some ((lines.card : ℚ) / (sequences.length : ℚ))⟩
  let association_rules := (split_rules rules).map fun lr =>
    let lines_lhs := interLines result lr.1
    let lines_rhs := interLines result lr.2
    let lhs_item : AssociationItem :=
      ⟨joinNames lr.1, lines_lhs, some ((lines_lhs.card : ℚ) / (sequences.length : ℚ))⟩
    let rhs_item : AssociationItem :=
      ⟨joinNames lr.2, lines_rhs, some ((lines_rhs.card : ℚ) / (sequences.length : ℚ))⟩
    let conf := divide int_item.support lhs_item.support
    let lift := divide conf rhs_item.support
    AssociationRule.mk lhs_item rhs_item conf lift
  (int_item, association_rules)

/-- The concrete rule-result map of claim C2: rule A (`Has "A"`) matches all
three traces, rule B (`Has "B"`) matches none. -/
def resultAB : Rule → Finset ℕ := fun r =>
  match r with
  | .has "A" => {0, 1, 2}
  | _ => ∅

theorem interAB_empty : interLines resultAB [Rule.has "A", Rule.has "B"] = ∅ := by
  decide

/-- C2 counterexample: on the 3-trace corpus with result map A ↦ {0,1,2},
B ↦ ∅, the association rule A ⇒ B has confidence 0.0 but lift NaN (it is
`divide(0.0, support(B)) = divide(0.0, 0.0)`, a zero division), not the 0.0
the claim states; B ⇒ A has confidence and lift NaN as claimed. -/
theorem C2_lift_counterexample :
    ((mine_rules [[["A"]], [["A"]], [["A"]]] [Rule.has "A", Rule.has "B"] resultAB).2.map
      fun ar => (ar.lhs.name, ar.rhs.name, ar.confidence, ar.lift)) =
      [(some "A", some "B", some 0, none), (some "B", some "A", none, none)] ∧
    (((none : Number) = some 0) = False) := by
  constructor
  · have hsplit : split_rules [Rule.has "A", Rule.has "B"] =
        [([Rule.has "A"], [Rule.has "B"]), ([Rule.has "B"], [Rule.has "A"])] := by rfl
    have hA : interLines resultAB [Rule.has "A"] = {0, 1, 2} := by decide
    have hB : interLines resultAB [Rule.has "B"] = ∅ := by decide
    have hAB : interLines resultAB [Rule.has "A", Rule.has "B"] = ∅ := by decide
    have hcard : ({0, 1, 2} : Finset ℕ).card = 3 := by decide
    have h03 : (0 : ℚ) / 3 = 0 := by norm_num
    have h33 : (3 : ℚ) / 3 = 1 := by norm_num
    have h01 : (0 : ℚ) / 1 = 0 := by norm_num
    have hnA : joinNames [Rule.has "A"] = some "A" := by
      simp [joinNames, List.mapM.loop, pyRepr]
      rfl
    have hnB : joinNames [Rule.has "B"] = some "B" := by
      simp [joinNames, List.mapM.loop, pyRepr]
      rfl
    simp [mine_rules, hsplit, hA, hB, hAB, hcard, h03, h33, h01, hnA, hnB, divide]
  · simp

/-- C2 (amended): on the 3-trace corpus with rule A matching all three
traces and rule B none: support(A) = 1.0, support(B) = 0.0, the combined
item has support 0.0, confidence(A⇒B) = 0.0 and lift(A⇒B) = NaN
(`divide(confidence, support(B))` divides by zero), while confidence(B⇒A)
and lift(B⇒A) are both NaN. -/
theorem C2_amended_association :
    (mine_rules [[["A"]], [["A"]], [["A"]]] [Rule.has "A", Rule.has "B"] resultAB).1.support =
      some 0 ∧
    ((mine_rules [[["A"]], [["A"]], [["A"]]] [Rule.has "A", Rule.has "B"] resultAB).2.map
      fun ar => (ar.lhs.name, ar.lhs.support, ar.rhs.name, ar.rhs.support,
        ar.confidence, ar.lift)) =
      [(some "A", some 1, some "B", some 0, some 0, none),
       (some "B", some 0, some "A", some 1, none, none)] := by
  have hsplit : split_rules [Rule.has "A", Rule.has "B"] =
      [([Rule.has "A"], [Rule.has "B"]), ([Rule.has "B"], [Rule.has "A"])] := by rfl
  have hA : interLines resultAB [Rule.has "A"] = {0, 1, 2} := by decide
  have hB : interLines resultAB [Rule.has "B"] = ∅ := by decide
  have hAB : interLines resultAB [Rule.has "A", Rule.has "B"] = ∅ := by decide
  have hcard : ({0, 1, 2} : Finset ℕ).card = 3 := by decide
  have h03 : (0 : ℚ) / 3 = 0 := by norm_num
  have h33 : (3 : ℚ) / 3 = 1 := by norm_num
  have h01 : (0 : ℚ) / 1 = 0 := by norm_num
  have hnA : joinNames [Rule.has "A"] = some "A" := by
    simp [joinNames, List.mapM.loop, pyRepr]
    rfl
  have hnB : joinNames [Rule.has "B"] = some "B" := by
    simp [joinNames, List.mapM.loop, pyRepr]
    rfl
  constructor
  · simp [mine_rules, hAB, h03]
  · simp [mine_rules, hsplit, hA, hB, hAB, hcard, h03, h33, h01, hnA, hnB, divide]


theorem mem_pyProduct {α : Type} (ls : List (List α)) (t : List α) :
    t ∈ pyProduct ls ↔ List.Forall₂ (fun x l => x ∈ l) t ls := by
  induction ls generalizing t with
  | nil =>
    simp only [pyProduct, List.mem_singleton]
    constructor
    · rintro rfl
      exact List.Forall₂.nil
    · intro h
      cases h
      rfl
  | cons l rest ih =>
    simp only [pyProduct, List.mem_flatMap, List.mem_map]
    constructor
    · rintro ⟨x, hx, t2, ht2, rfl⟩
      exact List.Forall₂.cons hx ((ih t2).1 ht2)
    · intro h
      cases h with
      | cons hx hrest => exact ⟨_, hx, _, (ih _).2 hrest, rfl⟩

theorem length_findPositionsList (rs : List Rule) (s : TSeq) (st : Int) :
    (findPositionsList rs s st).length = rs.length := by
  induction rs with
  | nil => simp [findPositionsList]
  | cons r rest ih => simp [findPositionsList, ih]

theorem chainOk_iff (same : Bool) (ps : List Pos) :
    chainOk same ps = true ↔
      List.Chain' (fun p q : Pos => if same then p.2 ≤ q.1 else p.2 < q.1) ps := by
  induction ps with
  | nil => simp [chainOk]
  | cons p rest ih =>
    cases rest with
    | nil => simp [chainOk]
    | cons q rest2 =>
      rw [chainOk, List.chain'_cons]
      by_cases h : q.1 ≤ p.2 ∧ (same = false ∨ q.1 < p.2)
      · rw [if_pos h]
        constructor
        · intro hfalse
          simp at hfalse
        · rintro ⟨hR, _⟩
          exfalso
          obtain ⟨h1, h2⟩ := h
          cases same
          · simp at hR
            omega
          · simp at hR
            rcases h2 with h2 | h2
            · simp at h2
            · omega
      · rw [if_neg h, ih]
        have hR : (if same then p.2 ≤ q.1 else p.2 < q.1) := by
          cases same <;> simp at h ⊢ <;> omega
        simp [hR]


/-- C5: `Sequence(r1..rn, same).find_positions` yields `(first.start,
last.end)` exactly for the tuples of the cartesian product of one match per
sub-rule whose consecutive ranges are accepted — with `same = false` a tuple
is rejected iff some `end_i ≥ start_{i+1}` (accepted iff every
`end_i < start_{i+1}`), with `same = true` rejected iff some
`end_i > start_{i+1}` (touching permitted).  In particular
`Sequence(Has "A", Has "B")` finds nothing in `[["B"], ["A"]]` and
`Sequence(Has "A", Has "B", same=True)` finds exactly `(0, 0)` in
`[["A", "B"]]`. -/
theorem C5_sequence_product_semantics :
    (∀ (hd : Rule) (tl : List Rule) (same : Bool) (s : TSeq) (st x y : Int),
      (x, y) ∈ find_positions (.seq hd tl same) s st ↔
      ∃ ps : List Pos,
        List.Forall₂ (fun p positions => p ∈ positions) ps (findPositionsList (hd :: tl) s st) ∧
        List.Chain' (fun p q : Pos => if same then p.2 ≤ q.1 else p.2 < q.1) ps ∧
        ∃ p0 pn, ps.head? = some p0 ∧ ps.getLast? = some pn ∧ x = p0.1 ∧ y = pn.2) ∧
    find_positions (.seq (.has "A") [.has "B"] false) [["B"], ["A"]] 0 = [] ∧
    find_positions (.seq (.has "A") [.has "B"] true) [["A", "B"]] 0 = [(0, 0)] := by
  refine ⟨?_, ?_, ?_⟩
  · intro hd tl same s st x y
    rw [find_positions]
    rw [List.mem_filterMap]
    constructor
    · rintro ⟨ps, hps, hf⟩
      cases ps with
      | nil => simp at hf
      | cons p rest =>
        cases hq : (p :: rest).getLast? with
        | none => simp at hq
        | some q =>
          rw [hq] at hf
          by_cases hc : chainOk same (p :: rest) = true
          · simp [hc] at hf
            exact ⟨p :: rest, (mem_pyProduct _ _).1 hps, (chainOk_iff _ _).1 hc,
              p, q, rfl, hq, hf.1.symm, hf.2.symm⟩
          · simp [hc] at hf
    · rintro ⟨ps, hf2, hchain, p0, pn, hh, hl, hx, hy⟩
      subst hx
      subst hy
      refine ⟨ps, (mem_pyProduct _ _).2 hf2, ?_⟩
      cases ps with
      | nil => simp at hh
      | cons p rest =>
        simp only [List.head?_cons, Option.some.injEq] at hh
        subst hh
        simp [hl, (chainOk_iff same (p :: rest)).2 hchain]
  · simp +decide [find_positions, findPositionsList, hasPositions, pyProduct, chainOk]
  · simp +decide [find_positions, findPositionsList, hasPositions, pyProduct, chainOk]


/-- A maximal contiguous run `[a, b]` of itemsets containing `e`: every
itemset in the run contains `e` and both neighbours (when they exist) do
not. -/
def maxRun (e : String) (full : TSeq) (a b : Nat) : Prop :=
  a ≤ b ∧ b < full.length ∧
  (∀ j, a ≤ j → j ≤ b → (full.getD j []).contains e = true) ∧
  (a = 0 ∨ (full.getD (a - 1) []).contains e = false) ∧
  (b = full.length - 1 ∨ (full.getD (b + 1) []).contains e = false)

/-- The loop-state invariant of `sliceLoop` at position `i`: with no open
run, position `i` is a legal run start (left neighbour misses `e`); with an
open run starting at `f`, all of `[f, i)` contains `e` and `f` is a legal
run start. -/
def sliceInv (e : String) (full : TSeq) (i : Nat) : Option Nat → Prop
  | none => i = 0 ∨ (full.getD (i - 1) []).contains e = false
  | some f => f < i ∧ (∀ j, f ≤ j → j < i → (full.getD j []).contains e = true) ∧
      (f = 0 ∨ (full.getD (f - 1) []).contains e = false)

/-- The extra constraint on which runs the loop can still emit from
position `i`. -/
def sliceFrom (i : Nat) : Option Nat → Nat → Prop
  | none, a => i ≤ a
  | some f, a => a = f ∨ i < a

theorem pySliceEnd_eq_pySlice (s : TSeq) (a : Nat) (olN : Nat) (h : olN = 0 ∨ olN = 1) :
    pySliceEnd s a olN = pySlice s a (s.length - olN) := by
  rcases h with h | h
  · subst h
    rw [pySliceEnd, if_pos rfl, pySlice]
    have hlen : (s.drop a).length = s.length - a := List.length_drop a s
    rw [Nat.sub_zero, ← hlen, List.take_length]
  · subst h
    rw [pySliceEnd, if_neg (by omega), pySlice]

theorem sliceLoop_nil_mem (e : String) (chk : TSeq → Bool) (ofN olN : Nat) (full : TSeq)
    (st : Int) (fst : Option Nat) (holN : olN = 0 ∨ olN = 1)
    (hinv : sliceInv e full full.length fst) (x y : Int) :
    (x, y) ∈ sliceLoop e chk ofN olN full st [] full.length fst ↔
      ∃ a b, maxRun e full a b ∧ chk (pySlice full (a + ofN) (b + 1 - olN)) = true ∧
        x = (a : Int) + st ∧ y = (b : Int) + st ∧ sliceFrom full.length fst a := by
  cases fst with
  | none =>
    rw [sliceLoop]
    simp only [List.not_mem_nil, false_iff]
    rintro ⟨a, b, ⟨hab, hblen, _, _, _⟩, _, _, _, hfrom⟩
    have : full.length ≤ a := hfrom
    omega
  | some f =>
    obtain ⟨hfi, hall, hleft⟩ := hinv
    have hlen1 : 1 ≤ full.length := by omega
    have hend : pySliceEnd full (f + ofN) olN =
        pySlice full (f + ofN) (full.length - 1 + 1 - olN) := by
      rw [pySliceEnd_eq_pySlice full (f + ofN) olN holN]
      congr 1
      omega
    rw [sliceLoop, hend]
    by_cases hchk : chk (pySlice full (f + ofN) (full.length - 1 + 1 - olN)) = true
    · rw [if_pos hchk]
      simp only [List.mem_singleton, Prod.mk.injEq]
      constructor
      · rintro ⟨hx, hy⟩
        refine ⟨f, full.length - 1, ⟨by omega, by omega, ?_, hleft, Or.inl rfl⟩,
          hchk, by rw [hx], by rw [hy]; congr 1; omega, Or.inl rfl⟩
        intro j hj1 hj2
        exact hall j hj1 (by omega)
      · rintro ⟨a, b, ⟨hab, hblen, hrun, hlb, hrb⟩, hc, hx, hy, hfrom⟩
        rcases hfrom with rfl | hgt
        · have hb : b = full.length - 1 := by
            rcases hrb with hb | hb
            · exact hb
            · by_contra hne
              have hj : (full.getD (b + 1) []).contains e = true :=
                hall (b + 1) (by omega) (by omega)
              rw [hj] at hb
              exact Bool.noConfusion hb
          subst hb
          exact ⟨by rw [hx], by rw [hy]; congr 1; omega⟩
        · omega
    · rw [if_neg hchk]
      simp only [List.not_mem_nil, false_iff]
      rintro ⟨a, b, ⟨hab, hblen, hrun, hlb, hrb⟩, hc, hx, hy, hfrom⟩
      rcases hfrom with rfl | hgt
      · have hb : b = full.length - 1 := by
          rcases hrb with hb | hb
          · exact hb
          · by_contra hne
            have hj : (full.getD (b + 1) []).contains e = true :=
              hall (b + 1) (by omega) (by omega)
            rw [hj] at hb
            exact Bool.noConfusion hb
        subst hb
        exact hchk hc
      · omega


theorem drop_cons_of_lt (full : TSeq) (i : Nat) (h : i < full.length) :
    full.drop i = full.getD i [] :: full.drop (i + 1) := by
  rw [List.drop_eq_getElem_cons h]
  congr 1
  rw [List.getD_eq_getElem?_getD, List.getElem?_eq_getElem h]
  rfl

theorem sliceLoop_mem (e : String) (chk : TSeq → Bool) (ofN olN : Nat) (full : TSeq)
    (st : Int) (holN : olN = 0 ∨ olN = 1) :
    ∀ (n i : Nat) (fst : Option Nat), full.length - i ≤ n → i ≤ full.length →
    sliceInv e full i fst → ∀ x y : Int,
    ((x, y) ∈ sliceLoop e chk ofN olN full st (full.drop i) i fst ↔
      ∃ a b, maxRun e full a b ∧ chk (pySlice full (a + ofN) (b + 1 - olN)) = true ∧
        x = (a : Int) + st ∧ y = (b : Int) + st ∧ sliceFrom i fst a) := by
  intro n
  induction n with
  | zero =>
    intro i fst hn hi hinv x y
    have hieq : i = full.length := by omega
    subst hieq
    rw [List.drop_length]
    exact sliceLoop_nil_mem e chk ofN olN full st fst holN hinv x y
  | succ n ih =>
    intro i fst hn hi hinv x y
    by_cases hieq : i = full.length
    · subst hieq
      rw [List.drop_length]
      exact sliceLoop_nil_mem e chk ofN olN full st fst holN hinv x y
    · have hilt : i < full.length := by omega
      rw [drop_cons_of_lt full i hilt]
      cases fst with
      | none =>
        by_cases hm : (full.getD i []).contains e = true
        · rw [sliceLoop, if_pos hm]
          rw [ih (i + 1) (some i) (by omega) (by omega)
            ⟨by omega, fun j hj1 hj2 => by
              have hj : j = i := by omega
              rw [hj]
              exact hm, hinv⟩]
          constructor
          · rintro ⟨a, b, hmr, hc, hx, hy, hfrom⟩
            refine ⟨a, b, hmr, hc, hx, hy, ?_⟩
            show i ≤ a
            rcases hfrom with rfl | hgt <;> omega
          · rintro ⟨a, b, hmr, hc, hx, hy, hfrom⟩
            refine ⟨a, b, hmr, hc, hx, hy, ?_⟩
            have hia : i ≤ a := hfrom
            by_cases ha : a = i
            · exact Or.inl ha
            · right
              by_contra hcon
              have ha1 : a = i + 1 := by omega
              obtain ⟨hab, hblen, hrun, hlb, hrb⟩ := hmr
              rcases hlb with h0 | hfa
              · omega
              · rw [ha1] at hfa
                simp only [Nat.add_sub_cancel] at hfa
                rw [hm] at hfa
                exact Bool.noConfusion hfa
        · have hmf : (full.getD i []).contains e = false := by
            revert hm
            cases (full.getD i []).contains e <;> simp
          rw [sliceLoop, if_neg hm]
          rw [ih (i + 1) none (by omega) (by omega) (Or.inr (by simpa using hmf))]
          constructor
          · rintro ⟨a, b, hmr, hc, hx, hy, hfrom⟩
            refine ⟨a, b, hmr, hc, hx, hy, ?_⟩
            show i ≤ a
            have : i + 1 ≤ a := hfrom
            omega
          · rintro ⟨a, b, hmr, hc, hx, hy, hfrom⟩
            refine ⟨a, b, hmr, hc, hx, hy, ?_⟩
            show i + 1 ≤ a
            have hia : i ≤ a := hfrom
            by_contra hcon
            have ha : a = i := by omega
            obtain ⟨hab, hblen, hrun, hlb, hrb⟩ := hmr
            have : (full.getD i []).contains e = true := by
              rw [← ha]
              exact hrun a le_rfl hab
            rw [hmf] at this
            exact Bool.noConfusion this
      | some f =>
        obtain ⟨hfi, hall, hleft⟩ := hinv
        by_cases hm : (full.getD i []).contains e = true
        · rw [sliceLoop]
          simp only [hm, Bool.not_true, Bool.false_eq_true, if_false]
          rw [ih (i + 1) (some f) (by omega) (by omega)
            ⟨by omega, fun j hj1 hj2 => by
              by_cases hj : j = i
              · rw [hj]
                exact hm
              · exact hall j hj1 (by omega), hleft⟩]
          constructor
          · rintro ⟨a, b, hmr, hc, hx, hy, hfrom⟩
            refine ⟨a, b, hmr, hc, hx, hy, ?_⟩
            rcases hfrom with rfl | hgt
            · exact Or.inl rfl
            · exact Or.inr (by omega)
          · rintro ⟨a, b, hmr, hc, hx, hy, hfrom⟩
            refine ⟨a, b, hmr, hc, hx, hy, ?_⟩
            rcases hfrom with rfl | hgt
            · exact Or.inl rfl
            · right
              by_contra hcon
              have ha1 : a = i + 1 := by omega
              obtain ⟨hab, hblen, hrun, hlb, hrb⟩ := hmr
              rcases hlb with h0 | hfa
              · omega
              · rw [ha1] at hfa
                simp only [Nat.add_sub_cancel] at hfa
                rw [hm] at hfa
                exact Bool.noConfusion hfa
        · have hmf : (full.getD i []).contains e = false := by
            revert hm
            cases (full.getD i []).contains e <;> simp
          have hige : 1 ≤ i := by omega
          rw [sliceLoop]
          simp only [hmf, Bool.not_false, if_true]
          rw [List.mem_append]
          rw [ih (i + 1) none (by omega) (by omega) (Or.inr (by simpa using hmf))]
          constructor
          · rintro (hsing | ⟨a, b, hmr, hc, hx, hy, hfrom⟩)
            · by_cases hchk : chk (pySlice full (f + ofN) (i - olN)) = true
              · rw [if_pos hchk] at hsing
                simp only [List.mem_singleton, Prod.mk.injEq] at hsing
                obtain ⟨hx, hy⟩ := hsing
                refine ⟨f, i - 1, ⟨by omega, by omega, ?_, hleft, Or.inr ?_⟩, ?_, hx, ?_,
                  Or.inl rfl⟩
                · intro j hj1 hj2
                  exact hall j hj1 (by omega)
                · have hsucc : i - 1 + 1 = i := by omega
                  rw [hsucc]
                  exact hmf
                · have hw : i - 1 + 1 - olN = i - olN := by omega
                  rw [hw]
                  exact hchk
                · rw [hy]
                  push_cast [Nat.cast_sub hige]
                  ring
              · rw [if_neg hchk] at hsing
                simp at hsing
            · have hfrom2 : i + 1 ≤ a := hfrom
              exact ⟨a, b, hmr, hc, hx, hy, Or.inr (by omega)⟩
          · rintro ⟨a, b, hmr, hc, hx, hy, hfrom⟩
            rcases hfrom with rfl | hgt
            · left
              obtain ⟨hab, hblen, hrun, hlb, hrb⟩ := hmr
              have hble : b ≤ i - 1 := by
                by_contra hbc
                have hcontra : (full.getD i []).contains e = true := hrun i (by omega) (by omega)
                rw [hmf] at hcontra
                exact Bool.noConfusion hcontra
              have hbge : i - 1 ≤ b := by
                by_contra hbc
                rcases hrb with hb | hb
                · omega
                · have hcontra : (full.getD (b + 1) []).contains e = true :=
                    hall (b + 1) (by omega) (by omega)
                  rw [hcontra] at hb
                  exact Bool.noConfusion hb
              have hbeq : b = i - 1 := by omega
              have hw : i - olN = b + 1 - olN := by omega
              rw [if_pos (by rw [hw]; exact hc)]
              simp only [List.mem_singleton, Prod.mk.injEq]
              refine ⟨hx, ?_⟩
              rw [hy, hbeq]
              push_cast [Nat.cast_sub hige]
              ring
            · exact Or.inr ⟨a, b, hmr, hc, hx, hy, show i + 1 ≤ a by omega⟩


/-- C6: `Slice(e, open_first, open_last).find_positions` yields one range per
maximal contiguous run of itemsets containing `e`, keeping a run exactly when
every attached sub-rule checks true against the run's sub-trace trimmed of
its first itemset when `open_first` and of its last itemset when `open_last`
(the window `s[a + open_first : b + 1 - open_last]`).  In particular
`Slice("A")` finds exactly `(0,0)` and `(2,2)` in `[["A"],["B"],["A"]]` and
exactly `(0,1)` in `[["A"],["A","B"],["C"]]`. -/
theorem C6_slice_maximal_runs :
    (∀ (e : String) (subs : List Rule) (opf opl : Bool) (s : TSeq) (st x y : Int),
      (x, y) ∈ find_positions (.slice e subs opf opl) s st ↔
      ∃ a b, maxRun e s a b ∧
        (subs.all fun r =>
          check r (pySlice s (a + boolNat opf) (b + 1 - boolNat opl))) = true ∧
        x = (a : Int) + st ∧ y = (b : Int) + st) ∧
    find_positions (.slice "A" [] false false) [["A"], ["B"], ["A"]] 0 = [(0, 0), (2, 2)] ∧
    find_positions (.slice "A" [] false false) [["A"], ["A", "B"], ["C"]] 0 = [(0, 1)] := by
  refine ⟨?_, ?_, ?_⟩
  · intro e subs opf opl s st x y
    rw [find_positions]
    have h0 := sliceLoop_mem e (fun w => subrulesCheck subs w) (boolNat opf) (boolNat opl)
      s st (by cases opl <;> simp [boolNat]) s.length 0 none (by omega) (by omega)
      (Or.inl rfl) x y
    rw [List.drop_zero] at h0
    rw [h0]
    constructor
    · rintro ⟨a, b, hmr, hchk, hx, hy, _⟩
      refine ⟨a, b, hmr, ?_, hx, hy⟩
      rw [← subrulesCheck_eq_all]
      exact hchk
    · rintro ⟨a, b, hmr, hchk, hx, hy⟩
      refine ⟨a, b, hmr, ?_, hx, hy, Nat.zero_le a⟩
      rw [subrulesCheck_eq_all]
      exact hchk
  · simp +decide [find_positions, sliceLoop, subrulesCheck, pySlice, pySliceEnd, boolNat]
  · simp +decide [find_positions, sliceLoop, subrulesCheck, pySlice, pySliceEnd, boolNat]


/-! ### Object-heap model of `ReplaceVariables.visit` (claim C9)

`ReplaceVariables.visit(rule)` first `deepcopy`s the rule object graph and
then runs the transforming traversal, which mutates `element` fields of
`Has`/`Slice` nodes and reassigns each node's child collection in place.  To
talk about mutation and object identity, Rule objects are given explicit
heap addresses: `HNode` is one Python object with child pointers, a `Heap`
maps addresses to objects (`next` = next fresh id), and the traversal is a
fueled heap program.  `mkNode r ks` is the object representing the top
constructor of `r` with child addresses `ks`. -/

/-- One Rule object on the heap (children by address). -/
inductive HNode where
  | hasN (element : String)
  | sliceN (element : String) (subrules : List Nat) (openFirst openLast : Bool)
  | seqN (rules : List Nat) (same : Bool)
  | andN (rules : List Nat)
  | orN (rules : List Nat)
  | notN (rule : Nat)
  | intersectN (rules : List Nat)
  | firstN (rule : Nat)
  | lastN (rule : Nat)

/-- The child attributes the transforming visitor recurses into, in visit
order. -/
def HNode.kids : HNode → List Nat
  | .hasN _ => []
  | .sliceN _ subs _ _ => subs
  | .seqN rules _ => rules
  | .andN rules => rules
  | .orN rules => rules
  | .notN r => [r]
  | .intersectN rules => rules
  | .firstN r => [r]
  | .lastN r => [r]

/-- The in-place child reassignment (`slice.subrules = subrules`,
`sequence.rules = rules`, `not_.rule = rule`, ...). -/
def HNode.withKids : HNode → List Nat → HNode
  | .hasN e, _ => .hasN e
  | .sliceN e _ opf opl, ks => .sliceN e ks opf opl
  | .seqN _ same, ks => .seqN ks same
  | .andN _, ks => .andN ks
  | .orN _, ks => .orN ks
  | .notN _, ks => .notN (ks.getD 0 0)
  | .intersectN _, ks => .intersectN ks
  | .firstN _, ks => .firstN (ks.getD 0 0)
  | .lastN _, ks => .lastN (ks.getD 0 0)

/-- The element mutation of `ReplaceVariables.visit_has`/`visit_slice`
(other node kinds carry no element). -/
def HNode.withElem (f : String → String) : HNode → HNode
  | .hasN e => .hasN (f e)
  | .sliceN e subs opf opl => .sliceN (f e) subs opf opl
  | nd => nd

/-- The sub-rules of a Rule value, in visit order. -/
def childrenOf : Rule → List Rule
  | .has _ => []
  | .slice _ subs _ _ => subs
  | .seq hd tl _ => hd :: tl
  | .and hd tl => hd :: tl
  | .or hd tl => hd :: tl
  | .not r => [r]
  | .intersect hd tl => hd :: tl
  | .first r => [r]
  | .last r => [r]

/-- The heap object for the top constructor of `r` with child addresses
`ks`. -/
def mkNode : Rule → List Nat → HNode
  | .has e, _ => .hasN e
  | .slice e _ opf opl, ks => .sliceN e ks opf opl
  | .seq _ _ same, ks => .seqN ks same
  | .and _ _, ks => .andN ks
  | .or _ _, ks => .orN ks
  | .not _, ks => .notN (ks.getD 0 0)
  | .intersect _ _, ks => .intersectN ks
  | .first _, ks => .firstN (ks.getD 0 0)
  | .last _, ks => .lastN (ks.getD 0 0)

/-- Object heap: contents per address plus the next fresh address. -/
structure Heap where
  mem : Nat → Option HNode
  next : Nat

def emptyHeap : Heap := ⟨fun _ => none, 0⟩

/-- In-place field update of the object at `a`. -/
def writeH (h : Heap) (a : Nat) (nd : HNode) : Heap :=
  ⟨fun x => if x = a then some nd else h.mem x, h.next⟩

/-- Allocation of a fresh object. -/
def allocH (h : Heap) (nd : HNode) : Nat × Heap :=
  (h.next, ⟨fun x => if x = h.next then some nd else h.mem x, h.next + 1⟩)

/-- Well-formed heap: nothing is stored at or above `next`. -/
def WFH (h : Heap) : Prop := ∀ x, h.next ≤ x → h.mem x = none

theorem sizeOf_list_pos {α : Type} [SizeOf α] (l : List α) : 1 ≤ sizeOf l := by
  cases l <;> simp_arith

mutual

/-- Lays a Rule value out as a fresh object graph (children first, so every
node's address is above all of its subtree). -/
def allocTree (r : Rule) (h : Heap) : Nat × Heap :=
  let p := allocList (childrenOf r) h
  allocH p.2 (mkNode r p.1)
termination_by 4 * sizeOf r + 5
decreasing_by simp_wf; cases r <;> simp [childrenOf] <;> omega

def allocList : List Rule → Heap → List Nat × Heap
  | [], h => ([], h)
  | r :: rest, h =>
      let p := allocTree r h
      let q := allocList rest p.2
      (p.1 :: q.1, q.2)
termination_by l _ => 4 * sizeOf l
decreasing_by
  all_goals simp_wf
  all_goals (have hpos := sizeOf_list_pos rest; omega)

end

mutual

/-- `copy.deepcopy` of the object graph at `a` (fueled heap walk; the trees
`allocTree` builds are unshared, for which copy-without-memo agrees with
Python's memoized deepcopy). -/
def deepcopyF : Nat → Heap → Nat → Option (Nat × Heap)
  | 0, _, _ => none
  | fuel + 1, h, a =>
    match h.mem a with
    | none => none
    | some nd =>
      match deepcopyListF fuel h nd.kids with
      | none => none
      | some (ks2, h2) => some (allocH h2 (nd.withKids ks2))
termination_by fuel _ _ => (fuel, 0)

def deepcopyListF : Nat → Heap → List Nat → Option (List Nat × Heap)
  | _, h, [] => some ([], h)
  | fuel, h, a :: rest =>
    match deepcopyF fuel h a with
    | none => none
    | some (a2, h2) =>
      match deepcopyListF fuel h2 rest with
      | none => none
      | some (as2, h3) => some (a2 :: as2, h3)
termination_by fuel _ l => (fuel, l.length + 1)

end

mutual

/-- The transforming traversal of `ReplaceVariables` on the heap: replace
the element in place (`visit_has`/`visit_slice`), visit the children, then
reassign the child collection with the returned addresses (which the
visitor returns unchanged). -/
def visitF (rp : List (String × String)) : Nat → Heap → Nat → Option (Nat × Heap)
  | 0, _, _ => none
  | fuel + 1, h, a =>
    match h.mem a with
    | none => none
    | some nd =>
      let nd1 := nd.withElem (replaceElem rp)
      let h1 := writeH h a nd1
      match visitListF rp fuel h1 nd1.kids with
      | none => none
      | some (ks2, h2) => some (a, writeH h2 a (nd1.withKids ks2))
termination_by fuel _ _ => (fuel, 0)

def visitListF (rp : List (String × String)) : Nat → Heap → List Nat →
    Option (List Nat × Heap)
  | _, h, [] => some ([], h)
  | fuel, h, a :: rest =>
    match visitF rp fuel h a with
    | none => none
    | some (a2, h2) =>
      match visitListF rp fuel h2 rest with
      | none => none
      | some (as2, h3) => some (a2 :: as2, h3)
termination_by fuel _ l => (fuel, l.length + 1)

end

/-- `ReplaceVariables(rp).visit(rule)` on the heap: deepcopy, then run the
transforming traversal on the copy. -/
def replaceVisitHeap (rp : List (String × String)) (fuel : Nat) (h : Heap) (a : Nat) :
    Option (Nat × Heap) :=
  match deepcopyF fuel h a with
  | none => none
  | some (a2, h2) => visitF rp fuel h2 a2

mutual

/-- `StoredT h lo a r`: the unshared object graph rooted at address `a`
represents the Rule value `r`, and all its addresses lie in `[lo, a]` with
the root on top (the layout `allocTree` produces). -/
inductive StoredT : Heap → Nat → Nat → Rule → Prop where
  | mk : ∀ {h : Heap} {lo a : Nat} {r : Rule} {ks : List Nat},
      h.mem a = some (mkNode r ks) → lo ≤ a → StoredTList h lo a ks (childrenOf r) →
      StoredT h lo a r

/-- Children at addresses `ks` represent `rs`, in disjoint consecutive
address blocks inside `[lo, bnd)`. -/
inductive StoredTList : Heap → Nat → Nat → List Nat → List Rule → Prop where
  | nil : ∀ {h : Heap} {lo bnd : Nat}, StoredTList h lo bnd [] []
  | cons : ∀ {h : Heap} {lo bnd a : Nat} {r : Rule} {rest : List Nat} {rs : List Rule},
      StoredT h lo a r → a < bnd → StoredTList h (a + 1) bnd rest rs →
      StoredTList h lo bnd (a :: rest) (r :: rs)

end

mutual

/-- Depth of a Rule tree (fuel bound for the heap walks). -/
def depthR (r : Rule) : Nat := 1 + depthL (childrenOf r)
termination_by 4 * sizeOf r + 5
decreasing_by simp_wf; cases r <;> simp [childrenOf] <;> omega

def depthL : List Rule → Nat
  | [] => 0
  | r :: rest => max (depthR r) (depthL rest)
termination_by l => 4 * sizeOf l
decreasing_by
  all_goals simp_wf
  all_goals (have hpos := sizeOf_list_pos rest; omega)

end


theorem WFH_lt {h : Heap} {a : Nat} {nd : HNode} (hw : WFH h) (hm : h.mem a = some nd) :
    a < h.next := by
  by_contra hc
  rw [hw a (by omega)] at hm
  exact Option.noConfusion hm

theorem storedT_lo : ∀ {h : Heap} {lo a : Nat} {r : Rule}, StoredT h lo a r → lo ≤ a
  | _, _, _, _, .mk _ hla _ => hla

theorem storedTList_length : ∀ {h : Heap} {lo bnd : Nat} {ks : List Nat} {rs : List Rule},
    StoredTList h lo bnd ks rs → ks.length = rs.length
  | _, _, _, _, _, .nil => rfl
  | _, _, _, _, _, .cons _ _ hrest => by simp [storedTList_length hrest]

theorem kids_mkNode (r : Rule) (ks : List Nat) (hlen : ks.length = (childrenOf r).length) :
    (mkNode r ks).kids = ks := by
  cases r with
  | has e =>
    simp [childrenOf] at hlen
    subst hlen
    rfl
  | slice e subs opf opl => rfl
  | seq hd tl same => rfl
  | and hd tl => rfl
  | or hd tl => rfl
  | not r =>
    simp [childrenOf] at hlen
    obtain ⟨k, rfl⟩ := List.length_eq_one.1 hlen
    rfl
  | intersect hd tl => rfl
  | first r =>
    simp [childrenOf] at hlen
    obtain ⟨k, rfl⟩ := List.length_eq_one.1 hlen
    rfl
  | last r =>
    simp [childrenOf] at hlen
    obtain ⟨k, rfl⟩ := List.length_eq_one.1 hlen
    rfl

theorem withKids_mkNode (r : Rule) (ks ks2 : List Nat) :
    (mkNode r ks).withKids ks2 = mkNode r ks2 := by
  cases r <;> rfl

theorem withElem_mkNode (rp : List (String × String)) (r : Rule) (ks : List Nat) :
    (mkNode r ks).withElem (replaceElem rp) = mkNode (replaceRule rp r) ks := by
  cases r <;> simp [mkNode, HNode.withElem, replaceRule]

theorem childrenOf_replaceRule (rp : List (String × String)) (r : Rule) :
    childrenOf (replaceRule rp r) = replaceRuleList rp (childrenOf r) := by
  cases r <;> simp [childrenOf, replaceRule, replaceRuleList]

theorem replaceRuleList_length (rp : List (String × String)) (l : List Rule) :
    (replaceRuleList rp l).length = l.length := by
  induction l with
  | nil => simp [replaceRuleList]
  | cons r rest ih => simp [replaceRuleList, ih]

theorem depthR_eq (r : Rule) : depthR r = 1 + depthL (childrenOf r) := by
  rw [depthR]

mutual

theorem storedT_mono : ∀ {h h2 : Heap} {lo a : Nat} {r : Rule},
    StoredT h lo a r → (∀ x, lo ≤ x → x ≤ a → h2.mem x = h.mem x) → StoredT h2 lo a r
  | _, _, _, _, _, .mk hmem hla hkids, hag =>
      .mk (by rw [hag _ hla le_rfl]; exact hmem) hla
        (storedTList_mono hkids (fun x hx1 hx2 => hag x hx1 (Nat.le_of_lt hx2)))

theorem storedTList_mono : ∀ {h h2 : Heap} {lo bnd : Nat} {ks : List Nat} {rs : List Rule},
    StoredTList h lo bnd ks rs → (∀ x, lo ≤ x → x < bnd → h2.mem x = h.mem x) →
    StoredTList h2 lo bnd ks rs
  | _, _, _, _, _, _, .nil, _ => .nil
  | _, _, _, _, _, _, .cons hc hab hrest, hag =>
      .cons (storedT_mono hc (fun x hx1 hx2 => hag x hx1 (by omega)))
        hab
        (storedTList_mono hrest (fun x hx1 hx2 => hag x (by
          have := storedT_lo hc
          omega) hx2))

end


mutual

theorem allocTree_spec : ∀ (r : Rule) (h : Heap), WFH h →
    WFH (allocTree r h).2 ∧ h.next ≤ (allocTree r h).1 ∧
    (allocTree r h).1 + 1 = (allocTree r h).2.next ∧
    (∀ x, x < h.next → (allocTree r h).2.mem x = h.mem x) ∧
    StoredT (allocTree r h).2 h.next (allocTree r h).1 r
  | r, h => fun hw => by
    obtain ⟨hw2, hle, hfr, hstored⟩ := allocList_spec (childrenOf r) h hw
    rw [allocTree]
    dsimp only [allocH]
    refine ⟨?_, hle, rfl, ?_, ?_⟩
    · intro x hx
      dsimp only at hx ⊢
      rw [if_neg (by omega)]
      exact hw2 x (by omega)
    · intro x hx
      rw [if_neg (by omega)]
      exact hfr x hx
    · refine @StoredT.mk _ _ _ _ ((allocList (childrenOf r) h).1) ?_ hle ?_
      · dsimp only
        rw [if_pos rfl]
      · refine storedTList_mono hstored ?_
        intro x hx1 hx2
        dsimp only
        rw [if_neg (by omega)]
termination_by r _ => 4 * sizeOf r + 5
decreasing_by simp_wf; cases r <;> simp [childrenOf] <;> omega

theorem allocList_spec : ∀ (rs : List Rule) (h : Heap), WFH h →
    WFH (allocList rs h).2 ∧ h.next ≤ (allocList rs h).2.next ∧
    (∀ x, x < h.next → (allocList rs h).2.mem x = h.mem x) ∧
    StoredTList (allocList rs h).2 h.next (allocList rs h).2.next (allocList rs h).1 rs
  | [], h => fun hw => by
    rw [allocList]
    exact ⟨hw, le_rfl, fun x _ => rfl, .nil⟩
  | r :: rest, h => fun hw => by
    obtain ⟨hwp, hlep, hnp, hfrp, hstp⟩ := allocTree_spec r h hw
    obtain ⟨hwq, hleq, hfrq, hstq⟩ := allocList_spec rest (allocTree r h).2 hwp
    rw [allocList]
    dsimp only
    have hple : h.next ≤ (allocTree r h).2.next := by omega
    refine ⟨hwq, by omega, ?_, ?_⟩
    · intro x hx
      rw [hfrq x (by omega)]
      exact hfrp x hx
    · refine StoredTList.cons ?_ (by omega) ?_
      · refine storedT_mono hstp ?_
        intro x hx1 hx2
        exact hfrq x (by omega)
      · rw [show (allocTree r h).1 + 1 = (allocTree r h).2.next from hnp]
        exact hstq
termination_by rs _ => 4 * sizeOf rs
decreasing_by
  all_goals simp_wf
  all_goals (have hpos := sizeOf_list_pos rest; omega)

end


/-- Specification of `deepcopyF` at a given fuel: copying a stored tree
succeeds, allocates a fresh unshared copy above the old `next`, and leaves
every pre-existing address untouched. -/
def DCF (fuel : Nat) : Prop :=
  ∀ {h : Heap} {lo a : Nat} {r : Rule}, WFH h → StoredT h lo a r → depthR r ≤ fuel →
    ∃ a2 h2, deepcopyF fuel h a = some (a2, h2) ∧ WFH h2 ∧ h.next ≤ a2 ∧
      a2 + 1 = h2.next ∧ (∀ x, x < h.next → h2.mem x = h.mem x) ∧ StoredT h2 h.next a2 r

/-- Specification of `deepcopyListF` at a given fuel. -/
def DCL (fuel : Nat) : Prop :=
  ∀ {h : Heap} {lo bnd : Nat} {ks : List Nat} {rs : List Rule}, WFH h →
    StoredTList h lo bnd ks rs → bnd ≤ h.next → depthL rs ≤ fuel →
    ∃ ks2 h2, deepcopyListF fuel h ks = some (ks2, h2) ∧ WFH h2 ∧ h.next ≤ h2.next ∧
      (∀ x, x < h.next → h2.mem x = h.mem x) ∧ StoredTList h2 h.next h2.next ks2 rs

theorem deepcopyListF_spec (fuel : Nat) (hF : DCF fuel) : DCL fuel := by
  intro h lo bnd ks rs hw hst hbnd hd
  induction ks generalizing h lo bnd rs with
  | nil =>
    cases hst with
    | nil => exact ⟨[], h, by simp [deepcopyListF], hw, le_rfl, fun x _ => rfl, .nil⟩
  | cons a rest ih =>
    cases hst with
    | cons hc hab hrest =>
      rw [depthL, Nat.max_le] at hd
      obtain ⟨hdr, hdrs⟩ := hd
      obtain ⟨a2, h2, heq1, hw2, hle2, hnx2, hfr2, hst2⟩ := hF hw hc hdr
      have hrest2 := storedTList_mono hrest (fun x hx1 hx2 => hfr2 x (by omega))
      obtain ⟨ks3, h3, heq2, hw3, hle3, hfr3, hst3⟩ := ih hw2 hrest2 (by omega) hdrs
      refine ⟨a2 :: ks3, h3, ?_, hw3, by omega, ?_, ?_⟩
      · simp [deepcopyListF, heq1, heq2]
      · intro x hx
        rw [hfr3 x (by omega), hfr2 x hx]
      · refine .cons (storedT_mono hst2 (fun x hx1 hx2 => hfr3 x (by omega)))
          (by omega) ?_
        rw [show a2 + 1 = h2.next from hnx2]
        exact hst3

theorem deepcopyF_spec : ∀ fuel, DCF fuel := by
  intro fuel
  induction fuel with
  | zero =>
    intro h lo a r hw hst hd
    exact absurd hd (by rw [depthR_eq]; omega)
  | succ n ihn =>
    have hL : DCL n := deepcopyListF_spec n ihn
    intro h lo a r hw hst hd
    cases hst with
    | mk hmem hla hkids =>
      rename_i ks
      have hlt := WFH_lt hw hmem
      have hklen := storedTList_length hkids
      have hdl : depthL (childrenOf r) ≤ n := by rw [depthR_eq] at hd; omega
      obtain ⟨ks2, h2, heq, hw2, hle2, hfr2, hst2⟩ := hL hw hkids (Nat.le_of_lt hlt) hdl
      refine ⟨h2.next,
        ⟨fun x => if x = h2.next then some (mkNode r ks2) else h2.mem x, h2.next + 1⟩,
        ?_, ?_, hle2, rfl, ?_, ?_⟩
      · simp [deepcopyF, hmem, kids_mkNode r ks hklen, heq, allocH, withKids_mkNode]
      · intro x hx
        dsimp only at hx ⊢
        rw [if_neg (by omega)]
        exact hw2 x (by omega)
      · intro x hx
        dsimp only
        rw [if_neg (by omega)]
        exact hfr2 x (by omega)
      · refine @StoredT.mk _ _ _ _ ks2 ?_ hle2 ?_
        · dsimp only
          rw [if_pos rfl]
        · refine storedTList_mono hst2 (fun x hx1 hx2 => ?_)
          dsimp only
          rw [if_neg (by omega)]


/-- Specification of `visitF` at a given fuel: the transforming traversal
returns the same address, keeps `next` unchanged, rewrites the stored tree
in place to `replaceRule` of it, and touches no address outside the
subtree block `[lo, a]`. -/
def VF (rp : List (String × String)) (fuel : Nat) : Prop :=
  ∀ {h : Heap} {lo a : Nat} {r : Rule}, WFH h → StoredT h lo a r → depthR r ≤ fuel →
    ∃ h2, visitF rp fuel h a = some (a, h2) ∧ WFH h2 ∧ h2.next = h.next ∧
      (∀ x, x < lo ∨ a < x → h2.mem x = h.mem x) ∧ StoredT h2 lo a (replaceRule rp r)

/-- Specification of `visitListF` at a given fuel. -/
def VL (rp : List (String × String)) (fuel : Nat) : Prop :=
  ∀ {h : Heap} {lo bnd : Nat} {ks : List Nat} {rs : List Rule}, WFH h →
    StoredTList h lo bnd ks rs → depthL rs ≤ fuel →
    ∃ h2, visitListF rp fuel h ks = some (ks, h2) ∧ WFH h2 ∧ h2.next = h.next ∧
      (∀ x, x < lo ∨ bnd ≤ x → h2.mem x = h.mem x) ∧
      StoredTList h2 lo bnd ks (replaceRuleList rp rs)

theorem visitListF_spec (rp : List (String × String)) (fuel : Nat) (hF : VF rp fuel) :
    VL rp fuel := by
  intro h lo bnd ks rs hw hst hd
  induction ks generalizing h lo bnd rs with
  | nil =>
    cases hst with
    | nil =>
      exact ⟨h, by simp [visitListF], hw, rfl, fun x _ => rfl, by
        rw [replaceRuleList]; exact .nil⟩
  | cons a rest ih =>
    cases hst with
    | cons hc hab hrest =>
      rw [depthL, Nat.max_le] at hd
      obtain ⟨hdr, hdrs⟩ := hd
      have hloa := storedT_lo hc
      obtain ⟨h2, heq1, hw2, hnx2, hfr2, hst2⟩ := hF hw hc hdr
      have hrest2 := storedTList_mono hrest (fun x hx1 hx2 => hfr2 x (by omega))
      obtain ⟨h3, heq2, hw3, hnx3, hfr3, hst3⟩ := ih hw2 hrest2 hdrs
      refine ⟨h3, ?_, hw3, by omega, ?_, ?_⟩
      · simp [visitListF, heq1, heq2]
      · intro x hx
        rw [hfr3 x (by omega), hfr2 x (by omega)]
      · rw [replaceRuleList]
        exact .cons (storedT_mono hst2 (fun x hx1 hx2 => hfr3 x (by omega))) hab hst3

theorem visitF_spec (rp : List (String × String)) : ∀ fuel, VF rp fuel := by
  intro fuel
  induction fuel with
  | zero =>
    intro h lo a r hw hst hd
    exact absurd hd (by rw [depthR_eq]; omega)
  | succ n ihn =>
    have hL : VL rp n := visitListF_spec rp n ihn
    intro h lo a r hw hst hd
    cases hst with
    | mk hmem hla hkids =>
      rename_i ks
      have hlt := WFH_lt hw hmem
      have hklen := storedTList_length hkids
      have hklen2 : ks.length = (childrenOf (replaceRule rp r)).length := by
        rw [childrenOf_replaceRule, replaceRuleList_length]
        exact hklen
      have hdl : depthL (childrenOf r) ≤ n := by rw [depthR_eq] at hd; omega
      have hw1 : WFH (writeH h a (mkNode (replaceRule rp r) ks)) := by
        intro x hx
        dsimp only [writeH] at hx ⊢
        rw [if_neg (by omega)]
        exact hw x hx
      have hkids1 : StoredTList (writeH h a (mkNode (replaceRule rp r) ks)) lo a ks
          (childrenOf r) := by
        refine storedTList_mono hkids (fun x hx1 hx2 => ?_)
        dsimp only [writeH]
        rw [if_neg (by omega)]
      obtain ⟨h2, heq, hw2, hnx2, hfr2, hst2⟩ := hL hw1 hkids1 hdl
      have hnx2a : h2.next = h.next := by
        dsimp only [writeH] at hnx2
        exact hnx2
      refine ⟨writeH h2 a (mkNode (replaceRule rp r) ks), ?_, ?_, ?_, ?_, ?_⟩
      · simp only [visitF, hmem, withElem_mkNode, kids_mkNode (replaceRule rp r) ks hklen2,
          heq, withKids_mkNode]
      · intro x hx
        dsimp only [writeH] at hx ⊢
        rw [if_neg (by omega)]
        exact hw2 x (by omega)
      · dsimp only [writeH]
        exact hnx2a
      · intro x hx
        dsimp only [writeH]
        rw [if_neg (by omega), hfr2 x (by omega)]
        dsimp only [writeH]
        rw [if_neg (by omega)]
      · refine @StoredT.mk _ _ _ _ ks ?_ hla ?_
        · dsimp only [writeH]
          rw [if_pos rfl]
        · rw [childrenOf_replaceRule]
          refine storedTList_mono hst2 (fun x hx1 hx2 => ?_)
          dsimp only [writeH]
          rw [if_neg (by omega)]


/-- C9: for every Rule tree and rename table, `ReplaceVariables(table).visit`
(modelled on the heap as deepcopy followed by the transforming traversal,
with fuel `depthR r`) succeeds, leaves every address of the original object
graph byte-for-byte unchanged — so the input tree still stores `r` afterwards
— and returns a root address at or above the old allocation frontier, a fresh
object graph storing `replaceRule table r`, disjoint from the original. -/
theorem C9_replace_transform_fresh_copy (r : Rule) (tbl : List (String × String)) :
    ∃ a h1 a2 h2,
      allocTree r emptyHeap = (a, h1) ∧
      replaceVisitHeap tbl (depthR r) h1 a = some (a2, h2) ∧
      a < h1.next ∧ h1.next ≤ a2 ∧
      (∀ x, x < h1.next → h2.mem x = h1.mem x) ∧
      StoredT h2 0 a r ∧
      StoredT h2 h1.next a2 (replaceRule tbl r) := by
  have hw0 : WFH emptyHeap := fun x _ => rfl
  obtain ⟨hw1, hle1, hnx1, hfr1, hst1⟩ := allocTree_spec r emptyHeap hw0
  obtain ⟨a2, h2, heqD, hw2, hle2, hnx2, hfr2, hst2⟩ :=
    deepcopyF_spec (depthR r) hw1 hst1 le_rfl
  obtain ⟨h3, heqV, hw3, hnx3, hfr3, hst3⟩ := visitF_spec tbl (depthR r) hw2 hst2 le_rfl
  refine ⟨(allocTree r emptyHeap).1, (allocTree r emptyHeap).2, a2, h3, rfl, ?_,
    by omega, hle2, ?_, ?_, hst3⟩
  · simp [replaceVisitHeap, heqD, heqV]
  · intro x hx
    rw [hfr3 x (Or.inl hx), hfr2 x hx]
  · have hstep1 : StoredT h2 0 (allocTree r emptyHeap).1 r :=
      storedT_mono hst1 (fun x hx1 hx2 => hfr2 x (by omega))
    exact storedT_mono hstep1 (fun x hx1 hx2 => hfr3 x (Or.inl (by omega)))

end PatternCounter
